import Mathlib

/-!
# Group statistics of `gtools_math.c`

A shallow embedding of `src/plugin/collapse/gtools_math.c` (stata-gtools): the
statistics computed over the range `[start, end)` of an array of doubles.

Conventions of the embedding.

* `ST_double` values are rationals and the arithmetic on them is exact, for
  the statements that are about exact arithmetic. Where the rounding of the
  double operations matters, the function has a second version, named with the
  suffix `_fl`, that takes the rounding `fl` applied to the result of every
  operation on doubles in the order the source evaluates them; `b64` is the
  rounding of binary64 (each operation rounded once, to nearest, halves to
  even), and the identity for `fl` gives the exact version back.
* The array `v` is a `List ℚ`; a function that reorders the array returns the
  new array next to its value.
* A call whose result C leaves undefined (a selection rank outside its
  contract, a conversion of a double that the integer type cannot hold)
  returns `none`.
* Ranges `[start, end)` have `start ≤ end`, and the loops over a range are
  folds over its entries in index order.
* What the source takes from outside the repository (`sqrt`, `atof`, the
  missing value `SV_missval` of the Stata plugin interface, the range of
  `GT_int`) is a field of `Host`.
-/

namespace Gtools

/-! ## Definitions -/

/-- Parts used by `gtools_math.c` that live outside the repository sources:
`sqrt` of libm (a double for every double), `atof` of libc, the missing value
`SV_missval` of the Stata plugin interface, and the largest value of the signed
integer type `GT_int` (its smallest value is `-(GT_int_max + 1)`). -/
structure Host where
  sqrt : ℚ → ℚ
  atof : String → ℚ
  SV_missval : ℚ
  GT_int_max : ℕ

/-- The macro `SQUARE(x)`. -/
def SQUARE (x : ℚ) : ℚ := x * x

/-- The macro `MAX(a, b)`, that is `(a) > (b) ? (a) : (b)`. -/
def MAX (a b : ℚ) : ℚ := if a > b then a else b

/-- The macro `MIN(a, b)`, that is `(a) > (b) ? (b) : (a)`. -/
def MIN (a b : ℚ) : ℚ := if a > b then b else a

/-- The array read `v[i]`. -/
def rd (v : List ℚ) (i : ℕ) : ℚ := v.getD i 0

/-- The entries `v[a], ..., v[b - 1]`, in the order a loop
`for (i = a; i < b; i++)` visits them. -/
def slice (v : List ℚ) (a b : ℕ) : List ℚ := (v.drop a).take (b - a)

/-- C `floor` on a double. -/
def c_floor (x : ℚ) : ℤ := ⌊x⌋

/-- C `round` on a double: to the nearest integer, halves away from zero. -/
def c_round (x : ℚ) : ℤ := if 0 ≤ x then ⌊x + 1 / 2⌋ else -⌊-x + 1 / 2⌋

/-- Conversion of an integer-valued double to the unsigned type `GT_size`:
undefined for a negative value. (No upper bound is modelled: every value the
quantile code converts that exceeds the group size is next used as a selection
rank outside the selection contract, which is undefined all the same.) -/
def to_GT_size (z : ℤ) : Option ℕ := if 0 ≤ z then some z.toNat else none

/-- The cast `(GT_int) x` of a double: truncation toward zero, undefined when
the truncated value is outside the range of `GT_int`. -/
def to_GT_int (H : Host) (x : ℚ) : Option ℤ :=
  let t : ℤ := if 0 ≤ x then ⌊x⌋ else ⌈x⌉
  if -((H.GT_int_max : ℤ) + 1) ≤ t ∧ t ≤ (H.GT_int_max : ℤ) then some t else none

/-- `gf_array_dsame (v, N)`: whether `v[1], ..., v[N - 1]` all equal `v[0]`. -/
def gf_array_dsame (v : List ℚ) (N : ℕ) : Bool :=
  !((slice v 1 N).any (fun x => decide (rd v 0 ≠ x)))

/-- `gf_array_dsum_range`: the sum of the range, accumulated from 0. -/
def gf_array_dsum_range (v : List ℚ) (start end_ : ℕ) : ℚ :=
  (slice v start end_).foldl (fun vsum x => vsum + x) 0

/-- `gf_array_dmean_range`: the sum over `end - start`. -/
def gf_array_dmean_range (v : List ℚ) (start end_ : ℕ) : ℚ :=
  gf_array_dsum_range v start end_ / ((end_ - start : ℕ) : ℚ)

/-- `gf_array_dsd_range`: 0 when all entries are the same, else the square root
of the sum of squared deviations over `end - start - 1`. -/
def gf_array_dsd_range (H : Host) (v : List ℚ) (start end_ : ℕ) : ℚ :=
  if gf_array_dsame (v.drop start) (end_ - start) then 0
  else
    let vmean := gf_array_dmean_range v start end_
    let vvar := (slice v start end_).foldl (fun vvar x => vvar + SQUARE (x - vmean)) 0
    H.sqrt (vvar / ((end_ - start - 1 : ℕ) : ℚ))

/-- `gf_array_dmin_range`: linear scan starting from `v[start]`. -/
def gf_array_dmin_range (v : List ℚ) (start end_ : ℕ) : ℚ :=
  (slice v (start + 1) end_).foldl (fun min x => if min > x then x else min) (rd v start)

/-- `gf_array_dmax_range`: linear scan starting from `v[start]`. -/
def gf_array_dmax_range (v : List ℚ) (start end_ : ℕ) : ℚ :=
  (slice v (start + 1) end_).foldl (fun max x => if max < x then x else max) (rd v start)

/-- Modelled from the spec: the recursion of the selection engine `select` of
`qselect.c` (included by `gtools_math.c`, absent from the sources) on the
entries `l` of the current partition, with target position `k` in it. The pivot
is the first entry; the partition is split into "less", "equal" and "greater"
relative to the pivot; the recursion continues in the part that contains
position `k` and stops when `k` falls in "equal" or the partition has one
entry. The first argument bounds the recursion depth. -/
def qselect_aux : ℕ → List ℚ → ℕ → List ℚ
  | 0, l, _ => l
  | _ + 1, [], _ => []
  | _ + 1, [x], _ => [x]
  | fuel + 1, p :: x :: rest, k =>
    let less := (x :: rest).filter (fun y => decide (y < p))
    let equal := p :: (x :: rest).filter (fun y => decide (y = p))
    let greater := (x :: rest).filter (fun y => decide (p < y))
    if k < less.length then qselect_aux fuel less k ++ (equal ++ greater)
    else if k < less.length + equal.length then less ++ (equal ++ greater)
    else less ++ (equal ++ qselect_aux fuel greater (k - less.length - equal.length))

/-- Modelled from the spec: `gf_qselect_range (v, left, right, k)` of
`qselect.c`. It reorders `v[left..right)` in place and returns the value that
ends up at position `left + k`; the result is undefined unless the range is a
non-empty range of the array and `0 ≤ k < right - left`. -/
def gf_qselect_range (v : List ℚ) (left right k : ℕ) : Option (ℚ × List ℚ) :=
  if left < right ∧ right ≤ v.length ∧ k < right - left then
    let w := v.take left ++ (qselect_aux (right - left) (slice v left right) k ++ v.drop right)
    some (rd w (left + k), w)
  else none

/-- `gf_array_dquantile_range`. The local variables keep their names. Ranges
have `start ≤ end`, so `N = end - start` and `N - 1` are the unsigned values of
the source. The two operands of a `+` are evaluated left to right, the second
selection on the array as the first left it. The rank handed to
`gf_qselect_range` is the conversion to `GT_size` of the double `qfoo` or
`qfoo - 1`. The arithmetic is exact; `gf_array_dquantile_range_fl` is the same
function with the double operations rounded. -/
def gf_array_dquantile_range (v : List ℚ) (start end_ : ℕ) (quantile : ℚ) :
    Option (ℚ × List ℚ) :=
  let N := end_ - start
  if N = 1 then some (rd v start, v)
  else if N = 2 then
    if quantile > 50 then some (MAX (rd v start) (rd v (end_ - 1)), v)
    else if quantile < 50 then some (MIN (rd v start) (rd v (end_ - 1)), v)
    else some ((rd v start + rd v (end_ - 1)) / 2, v)
  else
    let Nmod := N % 100
    let Ndbl : ℚ := (N : ℚ)
    let Ndiv := N / 100
    let qdbl : ℚ := if Nmod ≠ 0 then quantile * Ndbl / 100 else quantile * (Ndiv : ℚ)
    let qfoo : ℚ := (c_round qdbl : ℚ)
    let rfoo : Bool :=
      if Nmod ≠ 0 then decide (qfoo * 100 / Ndbl = quantile)
      else decide (qfoo / (Ndiv : ℚ) = quantile)
    (to_GT_size (c_floor qdbl)).bind fun qth =>
      if qth = 0 then some (gf_array_dmin_range v start end_, v)
      else
        let left := start
        let right := end_
        let dmax : Bool := decide (qth = N - 1) || decide (qfoo = ((N - 1 : ℕ) : ℚ))
        if rfoo then
          if dmax then
            (to_GT_size (c_round qdbl - 1)).bind fun k =>
              (gf_qselect_range v left right k).bind fun r =>
                some ((gf_array_dmax_range v left right + r.1) / 2, r.2)
          else
            (to_GT_size (c_round qdbl)).bind fun k1 =>
              (gf_qselect_range v left right k1).bind fun r1 =>
                (to_GT_size (c_round qdbl - 1)).bind fun k2 =>
                  (gf_qselect_range r1.2 left right k2).bind fun r2 =>
                    some ((r1.1 + r2.1) / 2, r2.2)
        else
          if dmax then some (gf_array_dmax_range v left right, v)
          else gf_qselect_range v left right qth

/-- `gf_array_dmedian_range`: the quantile at 50. -/
def gf_array_dmedian_range (v : List ℚ) (start end_ : ℕ) : Option (ℚ × List ℚ) :=
  gf_array_dquantile_range v start end_ 50

/-- `gf_array_diqr_range`: the quantile at 75 minus the quantile at 25, the
second computed on the array as the first left it. -/
def gf_array_diqr_range (v : List ℚ) (start end_ : ℕ) : Option (ℚ × List ℚ) :=
  (gf_array_dquantile_range v start end_ 75).bind fun a =>
    (gf_array_dquantile_range a.2 start end_ 25).bind fun b =>
      some (a.1 - b.1, b.2)

/-- `gf_array_dsemean_range`: `sd / sqrt (end - start)`. -/
def gf_array_dsemean_range (H : Host) (v : List ℚ) (start end_ : ℕ) : ℚ :=
  gf_array_dsd_range H v start end_ / H.sqrt ((end_ - start : ℕ) : ℚ)

/-- `gf_array_dsebinom_range`: the missing value as soon as an entry is neither
0 nor 1, else `sqrt (p * (1 - p) / (end - start))` with `p` the mean. -/
def gf_array_dsebinom_range (H : Host) (v : List ℚ) (start end_ : ℕ) : ℚ :=
  if (slice v start end_).any (fun x => decide (x ≠ 0) && decide (x ≠ 1)) then H.SV_missval
  else
    let p := gf_array_dmean_range v start end_
    H.sqrt (p * (1 - p) / ((end_ - start : ℕ) : ℚ))

/-- `gf_array_dsepois_range`: the missing value as soon as an entry is
negative, else `sqrt (rmean) / (end - start)` with `rmean` the cast to `GT_int`
of the sum plus 0.5. The arithmetic is exact; `gf_array_dsepois_range_fl` is
the same function with the double operations rounded. -/
def gf_array_dsepois_range (H : Host) (v : List ℚ) (start end_ : ℕ) : Option ℚ :=
  if (slice v start end_).any (fun x => decide (x < 0)) then some H.SV_missval
  else
    (to_GT_int H (gf_array_dsum_range v start end_ + 1 / 2)).map fun (rmean : ℤ) =>
      H.sqrt (rmean : ℚ) / ((end_ - start : ℕ) : ℚ)

/-- The sums `(m2, m3)` accumulated by the loop of `gf_array_dskew_range`. -/
def skew_sums (l : List ℚ) (vmean : ℚ) : ℚ × ℚ :=
  l.foldl (fun m x =>
    let s1 := x - vmean
    let s2 := s1 * s1
    (m.1 + s2, m.2 + s2 * s1)) (0, 0)

/-- `gf_array_dskew_range`. -/
def gf_array_dskew_range (H : Host) (v : List ℚ) (start end_ : ℕ) : ℚ :=
  if gf_array_dsame (v.drop start) (end_ - start) then H.SV_missval
  else
    let vmean := gf_array_dmean_range v start end_
    let m := skew_sums (slice v start end_) vmean
    let m2 := m.1 / ((end_ - start : ℕ) : ℚ)
    let m3 := m.2 / ((end_ - start : ℕ) : ℚ)
    let aux1 := H.sqrt m2
    let aux2 := aux1 * aux1 * aux1
    if aux2 > 0 then m3 / aux2 else H.SV_missval

/-- The sums `(m2, m4)` accumulated by the loop of `gf_array_dkurt_range`. -/
def kurt_sums (l : List ℚ) (vmean : ℚ) : ℚ × ℚ :=
  l.foldl (fun m x =>
    let s := SQUARE (x - vmean)
    (m.1 + s, m.2 + s * s)) (0, 0)

/-- `gf_array_dkurt_range`. -/
def gf_array_dkurt_range (H : Host) (v : List ℚ) (start end_ : ℕ) : ℚ :=
  if gf_array_dsame (v.drop start) (end_ - start) then H.SV_missval
  else
    let vmean := gf_array_dmean_range v start end_
    let m := kurt_sums (slice v start end_) vmean
    let m2 := m.1 / ((end_ - start : ℕ) : ℚ)
    let m4 := m.2 / ((end_ - start : ℕ) : ℚ)
    if m2 > 0 then m4 / (m2 * m2) else H.SV_missval

/-- `gf_switch_fun`: the statistic chosen by name; `strcmp (a, b) == 0` is
equality of strings. -/
def gf_switch_fun (H : Host) (fname : String) (v : List ℚ) (start end_ : ℕ) :
    Option (ℚ × List ℚ) :=
  if fname = "sum" then some (gf_array_dsum_range v start end_, v)
  else if fname = "mean" then some (gf_array_dmean_range v start end_, v)
  else if fname = "sd" then some (gf_array_dsd_range H v start end_, v)
  else if fname = "max" then some (gf_array_dmax_range v start end_, v)
  else if fname = "min" then some (gf_array_dmin_range v start end_, v)
  else if fname = "median" then gf_array_dmedian_range v start end_
  else if fname = "iqr" then gf_array_diqr_range v start end_
  else if fname = "semean" then some (gf_array_dsemean_range H v start end_, v)
  else if fname = "sebinomial" then some (gf_array_dsebinom_range H v start end_, v)
  else if fname = "sepoisson " then (gf_array_dsepois_range H v start end_).map fun x => (x, v)
  else if fname = "skewness" then some (gf_array_dskew_range H v start end_, v)
  else if fname = "kurtosis" then some (gf_array_dkurt_range H v start end_, v)
  else
    let q := H.atof fname
    if q > 0 then gf_array_dquantile_range v start end_ q else some (0, v)

/-- `gf_code_fun`: the internal code of a statistic name. -/
def gf_code_fun (H : Host) (fname : String) : ℚ :=
  if fname = "sum" then -1
  else if fname = "mean" then -2
  else if fname = "sd" then -3
  else if fname = "max" then -4
  else if fname = "min" then -5
  else if fname = "count" then -6
  else if fname = "percent" then -7
  else if fname = "median" then 50
  else if fname = "iqr" then -9
  else if fname = "first" then -10
  else if fname = "firstnm" then -11
  else if fname = "last" then -12
  else if fname = "lastnm" then -13
  else if fname = "semean" then -15
  else if fname = "sebinomial" then -16
  else if fname = "sepoisson " then -17
  else if fname = "skewness" then -19
  else if fname = "kurtosis" then -20
  else
    let q := H.atof fname
    if q > 0 then q else 0

/-- `gf_switch_fun_code`: the statistic chosen by internal code. -/
def gf_switch_fun_code (H : Host) (fcode : ℚ) (v : List ℚ) (start end_ : ℕ) :
    Option (ℚ × List ℚ) :=
  if fcode = -1 then some (gf_array_dsum_range v start end_, v)
  else if fcode = -2 then some (gf_array_dmean_range v start end_, v)
  else if fcode = -3 then some (gf_array_dsd_range H v start end_, v)
  else if fcode = -4 then some (gf_array_dmax_range v start end_, v)
  else if fcode = -5 then some (gf_array_dmin_range v start end_, v)
  else if fcode = -9 then gf_array_diqr_range v start end_
  else if fcode = -15 then some (gf_array_dsemean_range H v start end_, v)
  else if fcode = -16 then some (gf_array_dsebinom_range H v start end_, v)
  else if fcode = -17 then (gf_array_dsepois_range H v start end_).map fun x => (x, v)
  else if fcode = -19 then some (gf_array_dskew_range H v start end_, v)
  else if fcode = -20 then some (gf_array_dkurt_range H v start end_, v)
  else if fcode = -21 then some (gf_array_dsum_range v start end_, v)
  else gf_array_dquantile_range v start end_ fcode

/-- The range in ascending order: the order statistics of `v[start..end)`. -/
def sorted (v : List ℚ) (start end_ : ℕ) : List ℚ :=
  (slice v start end_).insertionSort (fun a b => a ≤ b)

/-- The list `l` has `x` at position `k`, nothing larger before it and nothing
smaller after it. -/
def PartAt (l : List ℚ) (k : ℕ) (x : ℚ) : Prop :=
  ∃ a b, l = a ++ x :: b ∧ a.length = k ∧ (∀ y ∈ a, y ≤ x) ∧ (∀ y ∈ b, x ≤ y)

/-- The quantile by position, as the contract words it: with `s` the range in
ascending order, `N` its size and `p = q * N / 100`, the minimum `s[0]` when
`p < 1`; the average of `s[p - 1]` and `s[p]` when `p` is an integer; the
maximum `s[N - 1]` when `p` is not an integer and `floor p = N - 1` or
`round p = N - 1`; and `s[floor p]` otherwise. -/
def quantile_by_position (s : List ℚ) (N : ℕ) (q : ℚ) : ℚ :=
  let p : ℚ := q * (N : ℚ) / 100
  if p < 1 then s.getD 0 0
  else if ((⌊p⌋ : ℤ) : ℚ) = p then (s.getD (⌊p⌋.toNat - 1) 0 + s.getD ⌊p⌋.toNat 0) / 2
  else if ⌊p⌋ = (N : ℤ) - 1 ∨ round p = (N : ℤ) - 1 then s.getD (N - 1) 0
  else s.getD ⌊p⌋.toNat 0

/-- The standard median of a range given in ascending order `s`: the middle
order statistic for an odd size, the average of the two middle order statistics
for an even size. -/
def standard_median (s : List ℚ) : ℚ :=
  if s.length % 2 = 1 then s.getD ((s.length - 1) / 2) 0
  else (s.getD (s.length / 2 - 1) 0 + s.getD (s.length / 2) 0) / 2

/-- The unsigned decimal number a string starts with, 0 when it starts with no
digit: `atof` on the strings used in the examples. -/
def atof_digits : List Char → ℕ → ℕ
  | [], acc => acc
  | c :: cs, acc => if c.isDigit then atof_digits cs (10 * acc + (c.toNat - 48)) else acc

/-- A host for the worked examples: the square root rounded down to 52 binary
digits, `atof` on unsigned decimal prefixes, Stata's missing value `2 ^ 1023`
and a 64-bit `GT_int`. -/
def exampleHost : Host where
  sqrt := fun x => (Nat.sqrt ⌊x * 2 ^ 104⌋.toNat : ℚ) / 2 ^ 52
  atof := fun s => (atof_digits s.data 0 : ℚ)
  SV_missval := 2 ^ 1023
  GT_int_max := 2 ^ 63 - 1

/-- The position of the quantile as the branch `if ( Nmod )` of
`gf_array_dquantile_range` computes it, the general formulation: `floor (qdbl)`
with `qdbl = quantile * Ndbl / 100`, `qfoo = round (qdbl)` and
`rfoo = ((qfoo * 100 / Ndbl) == quantile)`. -/
def position_general (N : ℕ) (quantile : ℚ) : ℤ × ℤ × Bool :=
  let Ndbl : ℚ := (N : ℚ)
  let qdbl : ℚ := quantile * Ndbl / 100
  let qfoo : ℤ := c_round qdbl
  (c_floor qdbl, qfoo, decide ((qfoo : ℚ) * 100 / Ndbl = quantile))

/-- The position of the quantile as the `else` branch of
`gf_array_dquantile_range` computes it, the formulation for a size that is a
multiple of 100: `floor (qdbl)` with `qdbl = quantile * Ndiv` and
`Ndiv = N / 100`, `qfoo = round (qdbl)` and `rfoo = ((qfoo / Ndiv) == quantile)`. -/
def position_round (N : ℕ) (quantile : ℚ) : ℤ × ℤ × Bool :=
  let Ndiv := N / 100
  let qdbl : ℚ := quantile * (Ndiv : ℚ)
  let qfoo : ℤ := c_round qdbl
  (c_floor qdbl, qfoo, decide ((qfoo : ℚ) / (Ndiv : ℚ) = quantile))

/-- The position `gf_array_dquantile_range` works with: `position_general`
when `Nmod = N % 100` is not 0, else `position_round`. -/
def quantile_position (N : ℕ) (quantile : ℚ) : ℤ × ℤ × Bool :=
  if N % 100 ≠ 0 then position_general N quantile else position_round N quantile

/-- The variable `qth` of `gf_array_dquantile_range`: the conversion to
`GT_size` of `floor (qdbl)`. -/
def quantile_qth (N : ℕ) (quantile : ℚ) : Option ℕ :=
  to_GT_size (quantile_position N quantile).1

/-- The part of `gf_array_dquantile_range` from `if ( qth == 0 )` on, for the
position `(floor (qdbl), qfoo, rfoo)`. -/
def quantile_resolve (v : List ℚ) (start end_ : ℕ) (pos : ℤ × ℤ × Bool) :
    Option (ℚ × List ℚ) :=
  let N := end_ - start
  (to_GT_size pos.1).bind fun qth =>
    if qth = 0 then some (gf_array_dmin_range v start end_, v)
    else
      let dmax : Bool := decide (qth = N - 1) || decide ((pos.2.1 : ℚ) = ((N - 1 : ℕ) : ℚ))
      if pos.2.2 then
        if dmax then
          (to_GT_size (pos.2.1 - 1)).bind fun k =>
            (gf_qselect_range v start end_ k).bind fun r =>
              some ((gf_array_dmax_range v start end_ + r.1) / 2, r.2)
        else
          (to_GT_size pos.2.1).bind fun k1 =>
            (gf_qselect_range v start end_ k1).bind fun r1 =>
              (to_GT_size (pos.2.1 - 1)).bind fun k2 =>
                (gf_qselect_range r1.2 start end_ k2).bind fun r2 =>
                  some ((r1.1 + r2.1) / 2, r2.2)
      else
        if dmax then some (gf_array_dmax_range v start end_, v)
        else gf_qselect_range v start end_ qth

/-- The ranks that `gf_array_dquantile_range` hands to `gf_qselect_range` on a
range of size `N`, in the order of the calls, before their conversion to
`GT_size`: none for `N ≤ 2`, for `qth == 0` and when the maximum is returned;
`qfoo - 1` when `rfoo` and `dmax`; `qfoo` and `qfoo - 1` when `rfoo` and not
`dmax`; `qth` otherwise. -/
def selection_ranks (N : ℕ) (quantile : ℚ) : List ℤ :=
  if N = 1 then []
  else if N = 2 then []
  else
    let pos := quantile_position N quantile
    match to_GT_size pos.1 with
    | none => []
    | some qth =>
      if qth = 0 then []
      else
        let dmax : Bool := decide (qth = N - 1) || decide ((pos.2.1 : ℚ) = ((N - 1 : ℕ) : ℚ))
        if pos.2.2 then
          if dmax then [pos.2.1 - 1] else [pos.2.1, pos.2.1 - 1]
        else
          if dmax then [] else [(qth : ℤ)]

/-- Unsigned subtraction of `GT_size` values, modulo `M` (the number of values
of the type). -/
def GT_size_sub (M a b : ℕ) : ℕ := (a + M - b) % M

/-- The condition under which `gf_array_dskew_range` returns the missing
value: the sameness test succeeds, or `aux2 > 0` fails. -/
def skew_returns_missing (H : Host) (v : List ℚ) (start end_ : ℕ) : Bool :=
  gf_array_dsame (v.drop start) (end_ - start) ||
    !(decide
      (H.sqrt ((skew_sums (slice v start end_) (gf_array_dmean_range v start end_)).1 /
          ((end_ - start : ℕ) : ℚ)) *
        H.sqrt ((skew_sums (slice v start end_) (gf_array_dmean_range v start end_)).1 /
          ((end_ - start : ℕ) : ℚ)) *
        H.sqrt ((skew_sums (slice v start end_) (gf_array_dmean_range v start end_)).1 /
          ((end_ - start : ℕ) : ℚ)) > 0))

/-- The condition under which `gf_array_dkurt_range` returns the missing
value: the sameness test succeeds, or `m2 > 0` fails. -/
def kurt_returns_missing (v : List ℚ) (start end_ : ℕ) : Bool :=
  gf_array_dsame (v.drop start) (end_ - start) ||
    !(decide ((kurt_sums (slice v start end_) (gf_array_dmean_range v start end_)).1 /
      ((end_ - start : ℕ) : ℚ) > 0))

/-- Heron's iteration for the square root of `x`, from `(x + 1) / 2`. -/
def heron_sqrt (x : ℚ) : ℕ → ℚ
  | 0 => (x + 1) / 2
  | n + 1 => (heron_sqrt x n + x / heron_sqrt x n) / 2

/-- A host for the worked examples whose square root is positive on every
positive number: five steps of Heron's iteration. -/
def heronHost : Host where
  sqrt := fun x => if 0 < x then heron_sqrt x 5 else 0
  atof := fun s => (atof_digits s.data 0 : ℚ)
  SV_missval := 2 ^ 1023
  GT_int_max := 2 ^ 63 - 1

/-- `gf_array_dsum_range` with the result of every addition rounded by `fl`. -/
def gf_array_dsum_range_fl (fl : ℚ → ℚ) (v : List ℚ) (start end_ : ℕ) : ℚ :=
  (slice v start end_).foldl (fun vsum x => fl (vsum + x)) 0

/-- The variable `rmean` of `gf_array_dsepois_range` before its conversion
back to a double: the cast to `GT_int` of the sum plus 0.5, the sum and the
addition of 0.5 rounded by `fl`. -/
def sepois_rmean_fl (fl : ℚ → ℚ) (H : Host) (v : List ℚ) (start end_ : ℕ) : Option ℤ :=
  to_GT_int H (fl (gf_array_dsum_range_fl fl v start end_ + 1 / 2))

/-- `gf_array_dsepois_range` with the result of every operation on doubles
rounded by `fl`: the additions of the sum, the addition of 0.5, the conversions
of `rmean` and of `end - start` to doubles, and the division. -/
def gf_array_dsepois_range_fl (fl : ℚ → ℚ) (H : Host) (v : List ℚ) (start end_ : ℕ) :
    Option ℚ :=
  if (slice v start end_).any (fun x => decide (x < 0)) then some H.SV_missval
  else
    (sepois_rmean_fl fl H v start end_).map fun (rmean : ℤ) =>
      fl (H.sqrt (fl (rmean : ℚ)) / fl ((end_ - start : ℕ) : ℚ))

/-- The variable `qdbl` of the branch `if ( Nmod )` of
`gf_array_dquantile_range`, `quantile * Ndbl / 100`, with every operation
rounded by `fl`. -/
def qdbl_general_fl (fl : ℚ → ℚ) (N : ℕ) (quantile : ℚ) : ℚ :=
  fl (fl (quantile * fl (N : ℚ)) / 100)

/-- The variable `qdbl` of the `else` branch of `gf_array_dquantile_range`,
`quantile * Ndiv`, with every operation rounded by `fl`. -/
def qdbl_round_fl (fl : ℚ → ℚ) (N : ℕ) (quantile : ℚ) : ℚ :=
  fl (quantile * fl ((N / 100 : ℕ) : ℚ))

/-- The position `(floor (qdbl), qfoo, rfoo)` that `gf_array_dquantile_range`
computes, with every operation on doubles rounded by `fl`: in the branch
`if ( Nmod )`, `rfoo = ((qfoo * 100 / Ndbl) == quantile)`; in the `else`
branch, `rfoo = ((qfoo / Ndiv) == quantile)`. -/
def quantile_position_fl (fl : ℚ → ℚ) (N : ℕ) (quantile : ℚ) : ℤ × ℤ × Bool :=
  if N % 100 ≠ 0 then
    (c_floor (qdbl_general_fl fl N quantile), c_round (qdbl_general_fl fl N quantile),
      decide (fl (fl ((c_round (qdbl_general_fl fl N quantile) : ℚ) * 100) / fl (N : ℚ)) =
        quantile))
  else
    (c_floor (qdbl_round_fl fl N quantile), c_round (qdbl_round_fl fl N quantile),
      decide (fl ((c_round (qdbl_round_fl fl N quantile) : ℚ) / fl ((N / 100 : ℕ) : ℚ)) =
        quantile))

/-- The part of `gf_array_dquantile_range` from `if ( qth == 0 )` on, for the
position `(floor (qdbl), qfoo, rfoo)`, with every operation on doubles rounded
by `fl`: the conversion of `N - 1` to a double, `qfoo - 1`, and the sum and the
halving of an average. -/
def quantile_resolve_fl (fl : ℚ → ℚ) (v : List ℚ) (start end_ : ℕ) (pos : ℤ × ℤ × Bool) :
    Option (ℚ × List ℚ) :=
  let N := end_ - start
  (to_GT_size pos.1).bind fun qth =>
    if qth = 0 then some (gf_array_dmin_range v start end_, v)
    else
      let dmax : Bool := decide (qth = N - 1) || decide ((pos.2.1 : ℚ) = fl ((N - 1 : ℕ) : ℚ))
      if pos.2.2 then
        if dmax then
          (to_GT_size (c_floor (fl ((pos.2.1 : ℚ) - 1)))).bind fun k =>
            (gf_qselect_range v start end_ k).bind fun r =>
              some (fl (fl (gf_array_dmax_range v start end_ + r.1) / 2), r.2)
        else
          (to_GT_size pos.2.1).bind fun k1 =>
            (gf_qselect_range v start end_ k1).bind fun r1 =>
              (to_GT_size (c_floor (fl ((pos.2.1 : ℚ) - 1)))).bind fun k2 =>
                (gf_qselect_range r1.2 start end_ k2).bind fun r2 =>
                  some (fl (fl (r1.1 + r2.1) / 2), r2.2)
      else
        if dmax then some (gf_array_dmax_range v start end_, v)
        else gf_qselect_range v start end_ qth

/-- `gf_array_dquantile_range` with every operation on doubles rounded by
`fl`. -/
def gf_array_dquantile_range_fl (fl : ℚ → ℚ) (v : List ℚ) (start end_ : ℕ) (quantile : ℚ) :
    Option (ℚ × List ℚ) :=
  let N := end_ - start
  if N = 1 then some (rd v start, v)
  else if N = 2 then
    if quantile > 50 then some (MAX (rd v start) (rd v (end_ - 1)), v)
    else if quantile < 50 then some (MIN (rd v start) (rd v (end_ - 1)), v)
    else some (fl (fl (rd v start + rd v (end_ - 1)) / 2), v)
  else quantile_resolve_fl fl v start end_ (quantile_position_fl fl N quantile)

/-- The ranks that `gf_array_dquantile_range` hands to `gf_qselect_range`, as
in `selection_ranks`, with every operation on doubles rounded by `fl`. -/
def selection_ranks_fl (fl : ℚ → ℚ) (N : ℕ) (quantile : ℚ) : List ℤ :=
  if N = 1 then []
  else if N = 2 then []
  else
    let pos := quantile_position_fl fl N quantile
    match to_GT_size pos.1 with
    | none => []
    | some qth =>
      if qth = 0 then []
      else
        let dmax : Bool := decide (qth = N - 1) || decide ((pos.2.1 : ℚ) = fl ((N - 1 : ℕ) : ℚ))
        if pos.2.2 then
          if dmax then [c_floor (fl ((pos.2.1 : ℚ) - 1))]
          else [pos.2.1, c_floor (fl ((pos.2.1 : ℚ) - 1))]
        else
          if dmax then [] else [(qth : ℤ)]

/-! ## Slices -/

theorem slice_length (v : List ℚ) (a b : ℕ) (hb : b ≤ v.length) :
    (slice v a b).length = b - a := by
  simp only [slice, List.length_take, List.length_drop]
  omega

theorem slice_getD (v : List ℚ) (a b i : ℕ) (hi : a + i < b) :
    (slice v a b).getD i 0 = rd v (a + i) := by
  have h1 : i < b - a := by omega
  simp [slice, rd, List.getD_eq_getElem?_getD, List.getElem?_take, h1]

theorem slice_cons (v : List ℚ) (a b : ℕ) (hab : a < b) (hb : b ≤ v.length) :
    slice v a b = rd v a :: slice v (a + 1) b := by
  have ha : a < v.length := by omega
  have h1 : b - a = (b - (a + 1)) + 1 := by omega
  simp only [slice, rd]
  rw [List.drop_eq_getElem_cons ha, h1, List.take_succ_cons, List.getD_eq_getElem v 0 ha]

theorem slice_splice (a s c : List ℚ) (left right : ℕ) (ha : a.length = left)
    (hs : s.length = right - left) : slice (a ++ (s ++ c)) left right = s := by
  subst ha
  simp only [slice, List.drop_left, ← hs, List.take_left]

theorem rd_splice_left (a s c : List ℚ) (i : ℕ) (hi : i < a.length) :
    rd (a ++ (s ++ c)) i = a.getD i 0 := by
  simp only [rd]
  exact List.getD_append _ _ _ _ hi

theorem rd_splice_mid (a s c : List ℚ) (i : ℕ) (hi : i < s.length) :
    rd (a ++ (s ++ c)) (a.length + i) = s.getD i 0 := by
  simp only [rd]
  rw [List.getD_append_right _ _ _ _ (by omega), Nat.add_sub_cancel_left,
    List.getD_append _ _ _ _ hi]

theorem rd_splice_right (a s c : List ℚ) (i : ℕ) (hi : a.length + s.length ≤ i) :
    rd (a ++ (s ++ c)) i = c.getD (i - a.length - s.length) 0 := by
  simp only [rd]
  rw [List.getD_append_right _ _ _ _ (by omega), List.getD_append_right _ _ _ _ (by omega)]

/-! ## Order statistics -/

theorem three_way_perm (p : ℚ) (l : List ℚ) :
    (l.filter (fun y => decide (y < p)) ++
      (l.filter (fun y => decide (y = p)) ++ l.filter (fun y => decide (p < y)))).Perm l := by
  induction l with
  | nil => simp
  | cons x t ih =>
    rcases lt_trichotomy x p with h | h | h
    · have h2 : ¬ x = p := ne_of_lt h
      have h3 : ¬ p < x := not_lt_of_lt h
      simp only [List.filter_cons, h, h2, h3, decide_True, decide_False, if_true,
        List.cons_append]
      simpa using ih
    · subst h
      simp only [List.filter_cons, lt_irrefl, decide_True, decide_False, if_true]
      exact List.perm_middle.trans (List.Perm.cons _ (by simpa using ih))
    · have h2 : ¬ x = p := ne_of_gt h
      have h3 : ¬ x < p := not_lt_of_lt h
      simp only [List.filter_cons, h, h2, h3, decide_True, decide_False, if_true]
      rw [← List.append_assoc]
      exact List.perm_middle.trans (List.Perm.cons _ (by simpa using ih))

theorem pivot_split_perm (p : ℚ) (l : List ℚ) :
    (l.filter (fun y => decide (y < p)) ++
      ((p :: l.filter (fun y => decide (y = p))) ++ l.filter (fun y => decide (p < y)))).Perm
      (p :: l) := by
  simp only [List.cons_append]
  exact List.perm_middle.trans (List.Perm.cons _ (three_way_perm p l))

theorem qselect_aux_perm (fuel : ℕ) : ∀ (l : List ℚ) (k : ℕ), (qselect_aux fuel l k).Perm l := by
  induction fuel with
  | zero => intro l k; simp [qselect_aux]
  | succ n ih =>
    intro l k
    match l with
    | [] => simp [qselect_aux]
    | [x] => simp [qselect_aux]
    | p :: x :: rest =>
      simp only [qselect_aux]
      split_ifs with h1 h2
      · exact (List.Perm.append_right _ (ih _ _)).trans (pivot_split_perm p (x :: rest))
      · exact pivot_split_perm p (x :: rest)
      · refine List.Perm.trans ?_ (pivot_split_perm p (x :: rest))
        exact List.Perm.append_left _ (List.Perm.append_left _ (ih _ _))

/-- With enough depth, the selection recursion leaves at position `k` an entry
with nothing larger before it and nothing smaller after it. -/
theorem qselect_aux_part (fuel : ℕ) :
    ∀ (l : List ℚ) (k : ℕ), l.length ≤ fuel → k < l.length →
      ∃ x, PartAt (qselect_aux fuel l k) k x := by
  induction fuel with
  | zero => intro l k h1 h2; omega
  | succ n ih =>
    intro l k hl hk
    match l with
    | [] => simp at hk
    | [x] =>
      have hk0 : k = 0 := by simpa using hk
      subst hk0
      exact ⟨x, [], [], by simp [qselect_aux], rfl, by simp, by simp⟩
    | p :: x :: rest =>
      have hlen := (pivot_split_perm p (x :: rest)).length_eq
      simp only [List.length_append, List.length_cons] at hlen hl hk
      have hmem_less : ∀ y ∈ (x :: rest).filter (fun y => decide (y < p)), y < p := by
        intro y hy
        simpa using (List.mem_filter.mp hy).2
      have hmem_gt : ∀ y ∈ (x :: rest).filter (fun y => decide (p < y)), p < y := by
        intro y hy
        simpa using (List.mem_filter.mp hy).2
      have hmem_eq : ∀ y ∈ p :: (x :: rest).filter (fun y => decide (y = p)), y = p := by
        intro y hy
        rcases List.mem_cons.mp hy with h | h
        · exact h
        · simpa using (List.mem_filter.mp h).2
      simp only [qselect_aux]
      split_ifs with h1 h2
      · obtain ⟨x0, a, b, hab, ha, hA, hB⟩ := ih _ k (by omega) h1
        have hx0 : x0 < p := by
          apply hmem_less
          apply (qselect_aux_perm n _ k).mem_iff.mp
          rw [hab]
          simp
        refine ⟨x0, a, b ++ ((p :: (x :: rest).filter (fun y => decide (y = p))) ++
          (x :: rest).filter (fun y => decide (p < y))), ?_, ha, hA, ?_⟩
        · rw [hab]
          simp
        · intro y hy
          rcases List.mem_append.mp hy with h | h
          · exact hB y h
          · rcases List.mem_append.mp h with h | h
            · rw [hmem_eq y h]
              exact le_of_lt hx0
            · exact le_of_lt (lt_trans hx0 (hmem_gt y h))
      · simp only [List.length_cons] at h2
        have hrep := List.eq_replicate_iff.mpr ⟨rfl, hmem_eq⟩
        generalize hE : p :: (x :: rest).filter (fun y => decide (y = p)) = E at hrep hmem_eq hlen
        have hElen : E.length = ((x :: rest).filter (fun y => decide (y = p))).length + 1 := by
          rw [← hE]
          rfl
        have hj : k - ((x :: rest).filter (fun y => decide (y < p))).length < E.length := by
          omega
        refine ⟨p, (x :: rest).filter (fun y => decide (y < p)) ++
          E.take (k - ((x :: rest).filter (fun y => decide (y < p))).length),
          E.drop (k - ((x :: rest).filter (fun y => decide (y < p))).length + 1) ++
            (x :: rest).filter (fun y => decide (p < y)), ?_, ?_, ?_, ?_⟩
        · have hE2 : E = E.take (k - ((x :: rest).filter (fun y => decide (y < p))).length) ++
              p :: E.drop (k - ((x :: rest).filter (fun y => decide (y < p))).length + 1) := by
            have h3 := List.drop_eq_getElem_cons hj
            have h4 : E[k - ((x :: rest).filter (fun y => decide (y < p))).length] = p :=
              hmem_eq _ (List.getElem_mem _)
            rw [h4] at h3
            rw [← h3, List.take_append_drop]
          conv_lhs => rw [hE2]
          simp
        · simp only [List.length_append, List.length_take]
          omega
        · intro y hy
          rcases List.mem_append.mp hy with h | h
          · exact le_of_lt (hmem_less y h)
          · exact le_of_eq (hmem_eq y (List.mem_of_mem_take h))
        · intro y hy
          rcases List.mem_append.mp hy with h | h
          · exact le_of_eq (hmem_eq y (List.mem_of_mem_drop h)).symm
          · exact le_of_lt (hmem_gt y h)
      · simp only [List.length_cons] at h2
        obtain ⟨x0, a, b, hab, ha, hA, hB⟩ := ih ((x :: rest).filter (fun y => decide (p < y)))
          (k - ((x :: rest).filter (fun y => decide (y < p))).length -
            (((x :: rest).filter (fun y => decide (y = p))).length + 1))
          (by have := List.length_filter_le (fun y => decide (p < y)) (x :: rest)
              simp only [List.length_cons] at this
              omega)
          (by omega)
        have hx0 : p < x0 := by
          apply hmem_gt
          apply (qselect_aux_perm n _ _).mem_iff.mp
          rw [hab]
          simp
        refine ⟨x0, (x :: rest).filter (fun y => decide (y < p)) ++
          ((p :: (x :: rest).filter (fun y => decide (y = p))) ++ a), b, ?_, ?_, ?_, hB⟩
        · simp only [List.length_cons]
          rw [hab]
          simp
        · simp only [List.length_append, List.length_cons, ha]
          omega
        · intro y hy
          rcases List.mem_append.mp hy with h | h
          · exact le_of_lt (lt_trans (hmem_less y h) hx0)
          · rcases List.mem_append.mp h with h | h
            · rw [hmem_eq y h]
              exact le_of_lt hx0
            · exact hA y h

theorem partAt_getD (l : List ℚ) (k : ℕ) (x : ℚ) (h : PartAt l k x) :
    k < l.length ∧ l.getD k 0 = x ∧ (∀ i, i < k → l.getD i 0 ≤ x) ∧
      (∀ i, k ≤ i → i < l.length → x ≤ l.getD i 0) := by
  obtain ⟨a, b, hab, ha, hA, hB⟩ := h
  subst hab
  subst ha
  refine ⟨by simp, ?_, ?_, ?_⟩
  · rw [List.getD_append_right _ _ _ _ (le_refl _)]
    simp
  · intro i hi
    rw [List.getD_append _ _ _ _ hi, List.getD_eq_getElem _ _ hi]
    exact hA _ (List.getElem_mem _)
  · intro i hi hlen
    rw [List.getD_append_right _ _ _ _ hi]
    have h2 : i - a.length < (x :: b).length := by
      simp only [List.length_append] at hlen
      omega
    rw [List.getD_eq_getElem _ _ h2]
    rcases List.mem_cons.mp (List.getElem_mem h2) with h | h
    · exact le_of_eq h.symm
    · exact hB _ h

theorem sort_perm_eq (l₁ l₂ : List ℚ) (h : l₁.Perm l₂) :
    l₁.insertionSort (fun a b => a ≤ b) = l₂.insertionSort (fun a b => a ≤ b) := by
  apply List.eq_of_perm_of_sorted (r := fun a b : ℚ => a ≤ b)
  · exact ((List.perm_insertionSort _ l₁).trans h).trans (List.perm_insertionSort _ l₂).symm
  · exact List.sorted_insertionSort _ _
  · exact List.sorted_insertionSort _ _

/-- An entry placed at position `k` of a permutation of `l`, with nothing larger
before it and nothing smaller after it, is the order statistic of rank `k` of
`l`. -/
theorem partAt_order_stat (l r : List ℚ) (k : ℕ) (x : ℚ) (h : PartAt r k x) (hp : r.Perm l) :
    (l.insertionSort (fun a b => a ≤ b)).getD k 0 = x := by
  obtain ⟨a, b, hab, ha, hA, hB⟩ := h
  have hs : l.insertionSort (fun a b => a ≤ b) =
      a.insertionSort (fun a b => a ≤ b) ++ x :: b.insertionSort (fun a b => a ≤ b) := by
    apply List.eq_of_perm_of_sorted (r := fun a b : ℚ => a ≤ b)
    · refine (List.perm_insertionSort _ l).trans (hp.symm.trans ?_)
      rw [hab]
      exact List.Perm.append (List.perm_insertionSort _ a).symm
        (List.Perm.cons _ (List.perm_insertionSort _ b).symm)
    · exact List.sorted_insertionSort _ _
    · have sa := List.sorted_insertionSort (fun a b : ℚ => a ≤ b) a
      have sb := List.sorted_insertionSort (fun a b : ℚ => a ≤ b) b
      unfold List.Sorted at *
      rw [List.pairwise_append]
      refine ⟨sa, List.pairwise_cons.mpr ⟨?_, sb⟩, ?_⟩
      · intro y hy
        exact hB y ((List.perm_insertionSort _ b).mem_iff.mp hy)
      · intro y hy z hz
        have h1 : y ≤ x := hA y ((List.perm_insertionSort _ a).mem_iff.mp hy)
        rcases List.mem_cons.mp hz with h | h
        · rw [h]
          exact h1
        · exact le_trans h1 (hB z ((List.perm_insertionSort _ b).mem_iff.mp h))
  rw [hs, List.getD_append_right _ _ _ _ (by simp [List.length_insertionSort, ha])]
  simp [List.length_insertionSort, ha]

/-! ## The selection engine -/

/-- Within its contract `gf_qselect_range` returns the order statistic of rank
`k` of the range and permutes the range only. -/
theorem qselect_range_eval (v : List ℚ) (left right k : ℕ) (h1 : left < right)
    (h2 : right ≤ v.length) (hk : k < right - left) :
    ∃ w, gf_qselect_range v left right k = some ((sorted v left right).getD k 0, w) ∧
      w.length = v.length ∧ (slice w left right).Perm (slice v left right) ∧
      (∀ i, i < left ∨ right ≤ i → rd w i = rd v i) ∧
      PartAt (slice w left right) k ((sorted v left right).getD k 0) := by
  have hsl := slice_length v left right h2
  have hperm := qselect_aux_perm (right - left) (slice v left right) k
  obtain ⟨x, hx⟩ := qselect_aux_part (right - left) (slice v left right) k (by omega) (by omega)
  have hxs : (sorted v left right).getD k 0 = x := partAt_order_stat _ _ k x hx hperm
  have hlen' : (qselect_aux (right - left) (slice v left right) k).length = right - left := by
    rw [hperm.length_eq, hsl]
  have htake : (v.take left).length = left := by
    rw [List.length_take]
    omega
  have hsp := slice_splice (v.take left) (qselect_aux (right - left) (slice v left right) k)
    (v.drop right) left right htake hlen'
  refine ⟨v.take left ++ (qselect_aux (right - left) (slice v left right) k ++ v.drop right),
    ?_, ?_, ?_, ?_, ?_⟩
  · simp only [gf_qselect_range, h1, h2, hk, and_self, if_true]
    have h3 := rd_splice_mid (v.take left) (qselect_aux (right - left) (slice v left right) k)
      (v.drop right) k (by omega)
    rw [htake] at h3
    rw [h3, (partAt_getD _ _ _ hx).2.1, hxs]
  · simp only [List.length_append, htake, hlen', List.length_drop]
    omega
  · rw [hsp]
    exact hperm
  · intro i hi
    rcases hi with hi | hi
    · rw [rd_splice_left _ _ _ _ (by omega)]
      simp only [rd, List.getD_eq_getElem?_getD]
      rw [List.getElem?_take_of_lt hi]
    · rw [rd_splice_right _ _ _ _ (by omega)]
      simp only [rd, List.getD_eq_getElem?_getD, List.getElem?_drop, htake, hlen']
      congr 2
      omega
  · rw [hsp, hxs]
    exact hx

/-! ## Minimum, maximum and the sorted range -/

theorem foldl_min_spec (l : List ℚ) :
    ∀ m0 : ℚ, (l.foldl (fun min x => if min > x then x else min) m0 = m0 ∨
        l.foldl (fun min x => if min > x then x else min) m0 ∈ l) ∧
      l.foldl (fun min x => if min > x then x else min) m0 ≤ m0 ∧
      ∀ y ∈ l, l.foldl (fun min x => if min > x then x else min) m0 ≤ y := by
  induction l with
  | nil => intro m0; simp
  | cons x t ih =>
    intro m0
    simp only [List.foldl_cons]
    obtain ⟨h1, h2, h3⟩ := ih (if m0 > x then x else m0)
    have h4 : (if m0 > x then x else m0) ≤ m0 ∧ (if m0 > x then x else m0) ≤ x ∧
        ((if m0 > x then x else m0) = m0 ∨ (if m0 > x then x else m0) = x) := by
      split_ifs with h
      · exact ⟨le_of_lt h, le_refl _, Or.inr rfl⟩
      · exact ⟨le_refl _, not_lt.mp h, Or.inl rfl⟩
    refine ⟨?_, le_trans h2 h4.1, ?_⟩
    · rcases h1 with h1 | h1
      · rcases h4.2.2 with h5 | h5
        · left
          rw [h1, h5]
        · right
          rw [h1, h5]
          exact List.mem_cons_self _ _
      · right
        exact List.mem_cons_of_mem _ h1
    · intro y hy
      rcases List.mem_cons.mp hy with h | h
      · rw [h]
        exact le_trans h2 h4.2.1
      · exact h3 y h

theorem foldl_max_spec (l : List ℚ) :
    ∀ m0 : ℚ, (l.foldl (fun max x => if max < x then x else max) m0 = m0 ∨
        l.foldl (fun max x => if max < x then x else max) m0 ∈ l) ∧
      m0 ≤ l.foldl (fun max x => if max < x then x else max) m0 ∧
      ∀ y ∈ l, y ≤ l.foldl (fun max x => if max < x then x else max) m0 := by
  induction l with
  | nil => intro m0; simp
  | cons x t ih =>
    intro m0
    simp only [List.foldl_cons]
    obtain ⟨h1, h2, h3⟩ := ih (if m0 < x then x else m0)
    have h4 : m0 ≤ (if m0 < x then x else m0) ∧ x ≤ (if m0 < x then x else m0) ∧
        ((if m0 < x then x else m0) = m0 ∨ (if m0 < x then x else m0) = x) := by
      split_ifs with h
      · exact ⟨le_of_lt h, le_refl _, Or.inr rfl⟩
      · exact ⟨le_refl _, not_lt.mp h, Or.inl rfl⟩
    refine ⟨?_, le_trans h4.1 h2, ?_⟩
    · rcases h1 with h1 | h1
      · rcases h4.2.2 with h5 | h5
        · left
          rw [h1, h5]
        · right
          rw [h1, h5]
          exact List.mem_cons_self _ _
      · right
        exact List.mem_cons_of_mem _ h1
    · intro y hy
      rcases List.mem_cons.mp hy with h | h
      · rw [h]
        exact le_trans h4.2.1 h2
      · exact h3 y h

theorem dmin_range_spec (v : List ℚ) (start end_ : ℕ) (h1 : start < end_)
    (h2 : end_ ≤ v.length) :
    gf_array_dmin_range v start end_ ∈ slice v start end_ ∧
      ∀ y ∈ slice v start end_, gf_array_dmin_range v start end_ ≤ y := by
  obtain ⟨ha, hb, hc⟩ := foldl_min_spec (slice v (start + 1) end_) (rd v start)
  rw [slice_cons v start end_ h1 h2]
  unfold gf_array_dmin_range
  refine ⟨?_, ?_⟩
  · rcases ha with h | h
    · rw [h]
      exact List.mem_cons_self _ _
    · exact List.mem_cons_of_mem _ h
  · intro y hy
    rcases List.mem_cons.mp hy with h | h
    · rw [h]
      exact hb
    · exact hc y h

theorem dmax_range_spec (v : List ℚ) (start end_ : ℕ) (h1 : start < end_)
    (h2 : end_ ≤ v.length) :
    gf_array_dmax_range v start end_ ∈ slice v start end_ ∧
      ∀ y ∈ slice v start end_, y ≤ gf_array_dmax_range v start end_ := by
  obtain ⟨ha, hb, hc⟩ := foldl_max_spec (slice v (start + 1) end_) (rd v start)
  rw [slice_cons v start end_ h1 h2]
  unfold gf_array_dmax_range
  refine ⟨?_, ?_⟩
  · rcases ha with h | h
    · rw [h]
      exact List.mem_cons_self _ _
    · exact List.mem_cons_of_mem _ h
  · intro y hy
    rcases List.mem_cons.mp hy with h | h
    · rw [h]
      exact hb
    · exact hc y h

theorem sorted_length (v : List ℚ) (start end_ : ℕ) (h2 : end_ ≤ v.length) :
    (sorted v start end_).length = end_ - start := by
  unfold sorted
  rw [List.length_insertionSort, slice_length v start end_ h2]

theorem sorted_mem (v : List ℚ) (start end_ : ℕ) (y : ℚ) :
    y ∈ sorted v start end_ ↔ y ∈ slice v start end_ :=
  (List.perm_insertionSort _ _).mem_iff

theorem sorted_mono (v : List ℚ) (start end_ i j : ℕ) (hij : i ≤ j)
    (hj : j < (sorted v start end_).length) :
    (sorted v start end_).getD i 0 ≤ (sorted v start end_).getD j 0 := by
  have hs : List.Sorted (fun a b : ℚ => a ≤ b) (sorted v start end_) :=
    List.sorted_insertionSort _ _
  rw [List.getD_eq_getElem _ _ hj, List.getD_eq_getElem _ _ (lt_of_le_of_lt hij hj)]
  rcases Nat.eq_or_lt_of_le hij with h | h
  · subst h
    exact le_refl _
  · exact (List.pairwise_iff_getElem.mp hs) i j _ _ h

theorem sorted_of_perm (v w : List ℚ) (start end_ : ℕ)
    (h : (slice w start end_).Perm (slice v start end_)) :
    sorted w start end_ = sorted v start end_ :=
  sort_perm_eq _ _ h

theorem dmin_eq_sorted (v : List ℚ) (start end_ : ℕ) (h1 : start < end_)
    (h2 : end_ ≤ v.length) :
    gf_array_dmin_range v start end_ = (sorted v start end_).getD 0 0 := by
  obtain ⟨ha, hb⟩ := dmin_range_spec v start end_ h1 h2
  have hlen := sorted_length v start end_ h2
  have h0 : 0 < (sorted v start end_).length := by omega
  apply le_antisymm
  · apply hb
    rw [← sorted_mem, List.getD_eq_getElem _ _ h0]
    exact List.getElem_mem _
  · obtain ⟨i, hi, hie⟩ := List.getElem_of_mem ((sorted_mem v start end_ _).mpr ha)
    rw [← hie, ← List.getD_eq_getElem _ 0 hi]
    exact sorted_mono v start end_ 0 i (Nat.zero_le _) hi

theorem dmax_eq_sorted (v : List ℚ) (start end_ : ℕ) (h1 : start < end_)
    (h2 : end_ ≤ v.length) :
    gf_array_dmax_range v start end_ = (sorted v start end_).getD (end_ - start - 1) 0 := by
  obtain ⟨ha, hb⟩ := dmax_range_spec v start end_ h1 h2
  have hlen := sorted_length v start end_ h2
  have h0 : end_ - start - 1 < (sorted v start end_).length := by omega
  apply le_antisymm
  · obtain ⟨i, hi, hie⟩ := List.getElem_of_mem ((sorted_mem v start end_ _).mpr ha)
    rw [← hie, ← List.getD_eq_getElem _ 0 hi]
    exact sorted_mono v start end_ i _ (by omega) h0
  · apply hb
    rw [← sorted_mem, List.getD_eq_getElem _ _ h0]
    exact List.getElem_mem _

/-! ## The position arithmetic of the quantile -/

theorem qdbl_eq (N : ℕ) (q : ℚ) :
    (if N % 100 ≠ 0 then q * (N : ℚ) / 100 else q * ((N / 100 : ℕ) : ℚ)) = q * (N : ℚ) / 100 := by
  by_cases h : N % 100 = 0
  · have h1 : N = 100 * (N / 100) := by omega
    have h2 : (N : ℚ) = 100 * ((N / 100 : ℕ) : ℚ) := by exact_mod_cast h1
    simp only [h, ne_eq, not_true_eq_false, if_false]
    rw [h2]
    ring
  · simp only [ne_eq, h, not_false_eq_true, if_true]

theorem rfoo_eq (N : ℕ) (q z : ℚ) (hN : 3 ≤ N) :
    (if N % 100 ≠ 0 then decide (z * 100 / (N : ℚ) = q)
      else decide (z / ((N / 100 : ℕ) : ℚ) = q)) = decide (z = q * (N : ℚ) / 100) := by
  have hN0 : (N : ℚ) ≠ 0 := by
    have : 0 < N := by omega
    exact_mod_cast this.ne'
  by_cases h : N % 100 = 0
  · have h1 : N = 100 * (N / 100) := by omega
    have h2 : (N : ℚ) = 100 * ((N / 100 : ℕ) : ℚ) := by exact_mod_cast h1
    have h3 : ((N / 100 : ℕ) : ℚ) ≠ 0 := by
      have : 0 < N / 100 := by omega
      exact_mod_cast this.ne'
    simp only [h, ne_eq, not_true_eq_false, if_false]
    congr 1
    rw [h2, div_eq_iff h3]
    apply propext
    constructor
    · intro h4
      rw [h4]
      ring
    · intro h4
      rw [h4]
      ring
  · simp only [ne_eq, h, not_false_eq_true, if_true]
    congr 1
    rw [div_eq_iff hN0]
    apply propext
    constructor
    · intro h4
      rw [← h4]
      ring
    · intro h4
      rw [h4]
      ring

theorem c_round_nonneg (x : ℚ) (hx : 0 ≤ x) : c_round x = ⌊x + 1 / 2⌋ := by
  simp [c_round, hx]

theorem round_eq_floor_iff (p : ℚ) : ((⌊p + 1 / 2⌋ : ℤ) : ℚ) = p ↔ ((⌊p⌋ : ℤ) : ℚ) = p := by
  constructor
  · intro h
    rw [← h, Int.floor_intCast]
  · intro h
    have h1 : ⌊p + 1 / 2⌋ = ⌊p⌋ := by
      rw [Int.floor_eq_iff]
      constructor
      · rw [h]
        linarith
      · rw [h]
        linarith
    rw [h1, h]

/-- The control flow of `gf_array_dquantile_range` for `N ≥ 3` and `q ≥ 0`, in
terms of the exact position `p = q * N / 100`: both formulations of `qdbl`
equal `p`, `rfoo` holds exactly when `p` is an integer, and `qfoo` is
`floor (p + 1 / 2)`. -/
theorem quantile_general (v : List ℚ) (start end_ N : ℕ) (q p : ℚ) (hNdef : N = end_ - start)
    (hN : 3 ≤ N) (hq : 0 ≤ q) (hp : p = q * (N : ℚ) / 100) :
    gf_array_dquantile_range v start end_ q =
      if ⌊p⌋.toNat = 0 then some (gf_array_dmin_range v start end_, v)
      else if ((⌊p⌋ : ℤ) : ℚ) = p then
        if ⌊p⌋.toNat = N - 1 then
          (gf_qselect_range v start end_ (⌊p⌋.toNat - 1)).bind fun r =>
            some ((gf_array_dmax_range v start end_ + r.1) / 2, r.2)
        else
          (gf_qselect_range v start end_ ⌊p⌋.toNat).bind fun r1 =>
            (gf_qselect_range r1.2 start end_ (⌊p⌋.toNat - 1)).bind fun r2 =>
              some ((r1.1 + r2.1) / 2, r2.2)
      else if ⌊p⌋.toNat = N - 1 ∨ ⌊p + 1 / 2⌋.toNat = N - 1 then
        some (gf_array_dmax_range v start end_, v)
      else gf_qselect_range v start end_ ⌊p⌋.toNat := by
  have hp0 : 0 ≤ p := by
    rw [hp]
    positivity
  have hf0 : 0 ≤ ⌊p⌋ := Int.floor_nonneg.mpr hp0
  have hr0 : 0 ≤ ⌊p + 1 / 2⌋ := Int.floor_nonneg.mpr (by linarith)
  have h1 : ¬ (end_ - start = 1) := by omega
  have h2 : ¬ (end_ - start = 2) := by omega
  unfold gf_array_dquantile_range
  simp only [h1, h2, if_false, qdbl_eq, rfoo_eq _ _ _ (hNdef ▸ hN)]
  rw [← hNdef, ← hp, c_round_nonneg p hp0]
  simp only [c_floor, to_GT_size, hf0, if_true, Option.some_bind]
  by_cases hz : ⌊p⌋.toNat = 0
  · simp only [hz, if_true]
  · simp only [hz, if_false]
    by_cases hint : ((⌊p⌋ : ℤ) : ℚ) = p
    · have hround : ⌊p + 1 / 2⌋ = ⌊p⌋ := by
        have := (round_eq_floor_iff p).mpr hint
        have h3 : ((⌊p + 1 / 2⌋ : ℤ) : ℚ) = ((⌊p⌋ : ℤ) : ℚ) := by rw [this, hint]
        exact_mod_cast h3
      have hpos : 0 ≤ ⌊p⌋ - 1 := by omega
      have hsub : (⌊p⌋ - 1).toNat = ⌊p⌋.toNat - 1 := by omega
      have hcast : ((⌊p⌋ : ℤ) : ℚ) = (((N - 1 : ℕ) : ℚ)) ↔ ⌊p⌋.toNat = N - 1 := by
        constructor
        · intro h
          have h4 : ⌊p⌋ = ((N - 1 : ℕ) : ℤ) := by exact_mod_cast h
          omega
        · intro h
          have h4 : ⌊p⌋ = ((N - 1 : ℕ) : ℤ) := by omega
          rw [h4]
          simp
      have hcast2 : p = (((N - 1 : ℕ) : ℚ)) ↔ ⌊p⌋.toNat = N - 1 := by
        rw [← hcast, hint]
      simp only [hround, hint, decide_True, if_true, hpos, hsub, Option.some_bind,
        Bool.or_eq_true, decide_eq_true_eq, hcast2, or_self, hf0]
    · have hint2 : ¬ ((⌊p + 1 / 2⌋ : ℤ) : ℚ) = p := fun h => hint ((round_eq_floor_iff p).mp h)
      have hcast : ((⌊p + 1 / 2⌋ : ℤ) : ℚ) = (((N - 1 : ℕ) : ℚ)) ↔ ⌊p + 1 / 2⌋.toNat = N - 1 := by
        constructor
        · intro h
          have h4 : ⌊p + 1 / 2⌋ = ((N - 1 : ℕ) : ℤ) := by exact_mod_cast h
          omega
        · intro h
          have h4 : ⌊p + 1 / 2⌋ = ((N - 1 : ℕ) : ℤ) := by omega
          rw [h4]
          simp
      simp only [hint, hint2, decide_False, if_false, Bool.or_eq_true, decide_eq_true_eq, hcast,
        Bool.false_eq_true]

/-- For `N ≥ 3` and `0 < q < 100` every selection is within its contract and
the quantile is the quantile by position of the sorted range. -/
theorem quantile_eval (v : List ℚ) (start end_ : ℕ) (q : ℚ) (hN : 3 ≤ end_ - start)
    (h2 : end_ ≤ v.length) (hq0 : 0 < q) (hq1 : q < 100) :
    ∃ w, gf_array_dquantile_range v start end_ q =
        some (quantile_by_position (sorted v start end_) (end_ - start) q, w) ∧
      (slice w start end_).Perm (slice v start end_) ∧ w.length = v.length := by
  have hlt : start < end_ := by omega
  have hNpos : (0 : ℚ) < ((end_ - start : ℕ) : ℚ) := by
    have : 0 < end_ - start := by omega
    exact_mod_cast this
  have hp0 : 0 < q * ((end_ - start : ℕ) : ℚ) / 100 := by positivity
  have hpN : q * ((end_ - start : ℕ) : ℚ) / 100 < ((end_ - start : ℕ) : ℚ) := by
    rw [div_lt_iff₀ (by norm_num : (0 : ℚ) < 100)]
    nlinarith
  rw [quantile_general v start end_ (end_ - start) q _ rfl hN (le_of_lt hq0) rfl]
  unfold quantile_by_position
  generalize hpdef : q * ((end_ - start : ℕ) : ℚ) / 100 = p at hp0 hpN
  simp only []
  have hf0 : 0 ≤ ⌊p⌋ := Int.floor_nonneg.mpr (le_of_lt hp0)
  have hfle : ((⌊p⌋ : ℤ) : ℚ) ≤ p := Int.floor_le p
  have hflt : p < ((⌊p⌋ : ℤ) : ℚ) + 1 := Int.lt_floor_add_one p
  have hfN : ⌊p⌋ < ((end_ - start : ℕ) : ℤ) := by
    have h3 : ((⌊p⌋ : ℤ) : ℚ) < (((end_ - start : ℕ) : ℤ) : ℚ) := by
      push_cast
      linarith
    exact_mod_cast h3
  by_cases hz : ⌊p⌋.toNat = 0
  · have hfz : ⌊p⌋ = 0 := by omega
    have hp1 : p < 1 := by
      rw [hfz] at hflt
      simpa using hflt
    simp only [hz, hp1, if_true]
    exact ⟨v, by rw [dmin_eq_sorted v start end_ hlt h2], List.Perm.refl _, rfl⟩
  · have hf1 : 1 ≤ ⌊p⌋ := by omega
    have hp1 : ¬ p < 1 := by
      have h3 : ((1 : ℤ) : ℚ) ≤ ((⌊p⌋ : ℤ) : ℚ) := by exact_mod_cast hf1
      push_cast at h3
      linarith
    simp only [hz, hp1, if_false]
    by_cases hint : ((⌊p⌋ : ℤ) : ℚ) = p
    · simp only [hint, if_true]
      by_cases hm : ⌊p⌋.toNat = end_ - start - 1
      · obtain ⟨w, hw, hlen, hperm, -⟩ :=
          qselect_range_eval v start end_ (⌊p⌋.toNat - 1) hlt h2 (by omega)
        refine ⟨w, ?_, hperm, hlen⟩
        simp only [hm, if_true] at hw ⊢
        rw [hw, Option.some_bind, dmax_eq_sorted v start end_ hlt h2, add_comm]
      · obtain ⟨w1, hw1, hlen1, hperm1, -⟩ :=
          qselect_range_eval v start end_ ⌊p⌋.toNat hlt h2 (by omega)
        obtain ⟨w2, hw2, hlen2, hperm2, -⟩ :=
          qselect_range_eval w1 start end_ (⌊p⌋.toNat - 1) hlt (by omega) (by omega)
        rw [sorted_of_perm v w1 start end_ hperm1] at hw2
        refine ⟨w2, ?_, hperm2.trans hperm1, hlen2.trans hlen1⟩
        simp only [hm, if_false]
        rw [hw1, Option.some_bind, hw2, Option.some_bind, add_comm]
    · simp only [hint, if_false]
      have hr0 : 0 ≤ ⌊p + 1 / 2⌋ := Int.floor_nonneg.mpr (by linarith)
      have hcond : (⌊p⌋.toNat = end_ - start - 1 ∨ ⌊p + 1 / 2⌋.toNat = end_ - start - 1) ↔
          (⌊p⌋ = ((end_ - start : ℕ) : ℤ) - 1 ∨ round p = ((end_ - start : ℕ) : ℤ) - 1) := by
        rw [round_eq]
        constructor
        · rintro (h | h)
          · left
            omega
          · right
            omega
        · rintro (h | h)
          · left
            omega
          · right
            omega
      by_cases hmax : ⌊p⌋ = ((end_ - start : ℕ) : ℤ) - 1 ∨ round p = ((end_ - start : ℕ) : ℤ) - 1
      · simp only [hcond, hmax, if_true]
        exact ⟨v, by rw [dmax_eq_sorted v start end_ hlt h2], List.Perm.refl _, rfl⟩
      · simp only [hcond, hmax, if_false]
        obtain ⟨w, hw, hlen, hperm, -⟩ :=
          qselect_range_eval v start end_ ⌊p⌋.toNat hlt h2 (by omega)
        exact ⟨w, hw, hperm, hlen⟩

theorem quantile_by_position_25_le_75 (v : List ℚ) (start end_ : ℕ) (hN : 3 ≤ end_ - start)
    (h2 : end_ ≤ v.length) :
    quantile_by_position (sorted v start end_) (end_ - start) 25 ≤
      quantile_by_position (sorted v start end_) (end_ - start) 75 := by
  have hlen := sorted_length v start end_ h2
  have mono : ∀ i j : ℕ, i ≤ j → j < end_ - start →
      (sorted v start end_).getD i 0 ≤ (sorted v start end_).getD j 0 := by
    intro i j hij hj
    exact sorted_mono v start end_ i j hij (by omega)
  generalize sorted v start end_ = s at mono
  generalize hNd : end_ - start = N at hN mono
  have hNq : (3 : ℚ) ≤ (N : ℚ) := by exact_mod_cast hN
  have hf1 := Int.floor_le (25 * (N : ℚ) / 100)
  have hf2 := Int.lt_floor_add_one (25 * (N : ℚ) / 100)
  have hg1 := Int.floor_le (75 * (N : ℚ) / 100)
  have hg2 := Int.lt_floor_add_one (75 * (N : ℚ) / 100)
  have hf0 : 0 ≤ ⌊25 * (N : ℚ) / 100⌋ := Int.floor_nonneg.mpr (by positivity)
  have hfg : ⌊25 * (N : ℚ) / 100⌋ + 1 ≤ ⌊75 * (N : ℚ) / 100⌋ := by
    have h3 : ((⌊25 * (N : ℚ) / 100⌋ : ℤ) : ℚ) < ((⌊75 * (N : ℚ) / 100⌋ : ℤ) : ℚ) := by
      linarith
    have h4 : ⌊25 * (N : ℚ) / 100⌋ < ⌊75 * (N : ℚ) / 100⌋ := by exact_mod_cast h3
    omega
  have hgN : ⌊75 * (N : ℚ) / 100⌋ < (N : ℤ) := by
    have h3 : ((⌊75 * (N : ℚ) / 100⌋ : ℤ) : ℚ) < (((N : ℤ)) : ℚ) := by
      push_cast
      linarith
    exact_mod_cast h3
  have hlow : quantile_by_position s N 25 ≤ s.getD ⌊25 * (N : ℚ) / 100⌋.toNat 0 := by
    unfold quantile_by_position
    simp only []
    split_ifs with h3 h4 h5
    · exact mono _ _ (Nat.zero_le _) (by omega)
    · have h6 := mono (⌊25 * (N : ℚ) / 100⌋.toNat - 1) ⌊25 * (N : ℚ) / 100⌋.toNat
        (by omega) (by omega)
      linarith
    · exfalso
      rcases h5 with h5 | h5
      · have h6 : ((⌊25 * (N : ℚ) / 100⌋ : ℤ) : ℚ) = (N : ℚ) - 1 := by
          rw [h5]
          push_cast
          ring
        linarith
      · rw [round_eq] at h5
        have h6 := Int.floor_le (25 * (N : ℚ) / 100 + 1 / 2)
        rw [h5] at h6
        push_cast at h6
        linarith
    · exact le_refl _
  have hhigh : s.getD (⌊75 * (N : ℚ) / 100⌋.toNat - 1) 0 ≤ quantile_by_position s N 75 := by
    unfold quantile_by_position
    simp only []
    split_ifs with h3 h4 h5
    · exfalso
      linarith
    · have h6 := mono (⌊75 * (N : ℚ) / 100⌋.toNat - 1) ⌊75 * (N : ℚ) / 100⌋.toNat
        (by omega) (by omega)
      linarith
    · exact mono _ _ (by omega) (by omega)
    · exact mono _ _ (by omega) (by omega)
  exact le_trans hlow (le_trans (mono _ _ (by omega) (by omega)) hhigh)

/-! ## Ranges by index, sums and the sameness test -/

theorem mem_slice_iff (v : List ℚ) (a b : ℕ) (hb : b ≤ v.length) (x : ℚ) :
    x ∈ slice v a b ↔ ∃ i, a ≤ i ∧ i < b ∧ rd v i = x := by
  have hlen := slice_length v a b hb
  constructor
  · intro hx
    obtain ⟨n, hn, hnx⟩ := List.getElem_of_mem hx
    refine ⟨a + n, by omega, by omega, ?_⟩
    rw [← slice_getD v a b n (by omega), List.getD_eq_getElem _ _ hn]
    exact hnx
  · rintro ⟨i, hi1, hi2, hix⟩
    have hn : i - a < (slice v a b).length := by omega
    have h3 := slice_getD v a b (i - a) (by omega)
    have h4 : a + (i - a) = i := by omega
    rw [h4, hix, List.getD_eq_getElem _ _ hn] at h3
    rw [← h3]
    exact List.getElem_mem _

theorem slice_drop (v : List ℚ) (s a b : ℕ) : slice (v.drop s) a b = slice v (s + a) (s + b) := by
  have h : s + b - (s + a) = b - a := by omega
  simp only [slice, List.drop_drop, h]

theorem dsum_eq_sum (v : List ℚ) (start end_ : ℕ) :
    gf_array_dsum_range v start end_ = (slice v start end_).sum := by
  unfold gf_array_dsum_range
  rw [List.sum_eq_foldl]

theorem dsame_of_constant (v : List ℚ) (start end_ : ℕ) (c : ℚ) (h1 : start < end_)
    (h2 : end_ ≤ v.length) (hc : ∀ i, start ≤ i → i < end_ → rd v i = c) :
    gf_array_dsame (v.drop start) (end_ - start) = true := by
  have h0 : rd (v.drop start) 0 = c := by
    have h3 := hc start (le_refl _) h1
    simp only [rd, List.getD_eq_getElem?_getD, List.getElem?_drop] at h3 ⊢
    exact h3
  have hany : (slice (v.drop start) 1 (end_ - start)).any
      (fun x => decide (rd (v.drop start) 0 ≠ x)) = false := by
    rw [List.any_eq_false]
    intro x hx
    rw [slice_drop] at hx
    have h4 : start + (end_ - start) = end_ := by omega
    rw [h4] at hx
    obtain ⟨i, hi1, hi2, hix⟩ := (mem_slice_iff v (start + 1) end_ h2 x).mp hx
    have h5 := hc i (by omega) hi2
    simp only [decide_eq_true_eq, ne_eq, not_not]
    rw [h0, ← hix, h5]
  simp only [gf_array_dsame, hany, Bool.not_false]

theorem sum_bounds_of_binary (l : List ℚ) (h : ∀ x ∈ l, x = 0 ∨ x = 1) :
    0 ≤ l.sum ∧ l.sum ≤ (l.length : ℚ) := by
  induction l with
  | nil => simp
  | cons a t ih =>
    obtain ⟨h3, h4⟩ := ih (fun x hx => h x (List.mem_cons_of_mem _ hx))
    simp only [List.sum_cons, List.length_cons, Nat.cast_add, Nat.cast_one]
    rcases h a (List.mem_cons_self _ _) with ha | ha
    · rw [ha]
      constructor <;> linarith
    · rw [ha]
      constructor <;> linarith

theorem sum_nonneg_of_nonneg (l : List ℚ) (h : ∀ x ∈ l, 0 ≤ x) : 0 ≤ l.sum :=
  List.sum_nonneg h

theorem exampleHost_sqrt_le_one (x : ℚ) (hx0 : 0 ≤ x) (hx1 : x ≤ 1) : exampleHost.sqrt x ≤ 1 := by
  have h1 : ⌊x * 2 ^ 104⌋ ≤ 2 ^ 104 := by
    have h3 : x * 2 ^ 104 ≤ ((2 ^ 104 : ℤ) : ℚ) := by
      push_cast
      nlinarith
    have h4 := Int.floor_le_floor h3
    rwa [Int.floor_intCast] at h4
  have h2 : ⌊x * 2 ^ 104⌋.toNat ≤ (2 ^ 52) ^ 2 := by
    have : 0 ≤ ⌊x * 2 ^ 104⌋ := Int.floor_nonneg.mpr (by positivity)
    have h4 : ((2 ^ 52) ^ 2 : ℕ) = 2 ^ 104 := by norm_num
    omega
  have h5 : Nat.sqrt ⌊x * 2 ^ 104⌋.toNat ≤ 2 ^ 52 := by
    have := Nat.sqrt_le_sqrt h2
    rwa [Nat.sqrt_eq'] at this
  show (Nat.sqrt ⌊x * 2 ^ 104⌋.toNat : ℚ) / 2 ^ 52 ≤ 1
  rw [div_le_one (by positivity)]
  exact_mod_cast h5

/-! ## The quantile at 50 and at 100 -/

/-- On every range of three entries the quantile at 50 is the maximum. -/
theorem median_of_three (v : List ℚ) (start : ℕ) :
    gf_array_dmedian_range v start (start + 3) =
      some (gf_array_dmax_range v start (start + 3), v) := by
  have hN : start + 3 - start = 3 := by omega
  have hp : (3 / 2 : ℚ) = 50 * ((3 : ℕ) : ℚ) / 100 := by norm_num
  have hf : ⌊(3 / 2 : ℚ)⌋ = 1 := by
    rw [Int.floor_eq_iff]
    norm_num
  have hr : ⌊(3 / 2 : ℚ) + 1 / 2⌋ = 2 := by
    rw [Int.floor_eq_iff]
    norm_num
  unfold gf_array_dmedian_range
  rw [quantile_general v start (start + 3) 3 50 (3 / 2) hN.symm (le_refl _) (by norm_num) hp,
    hf, hr]
  have h2 : Int.toNat 2 = 2 := rfl
  have h1 : Int.toNat 1 = 1 := rfl
  norm_num [h1, h2]

/-- On every range of three entries or more the quantile at 100 selects with
rank `N`, outside the selection contract. -/
theorem quantile_100_undefined (v : List ℚ) (start end_ : ℕ) (hN : 3 ≤ end_ - start) :
    gf_array_dquantile_range v start end_ 100 = none := by
  have hp : ((end_ - start : ℕ) : ℚ) = 100 * ((end_ - start : ℕ) : ℚ) / 100 := by ring
  have hf : ⌊((end_ - start : ℕ) : ℚ)⌋ = ((end_ - start : ℕ) : ℤ) := Int.floor_natCast _
  have hsel : gf_qselect_range v start end_ (end_ - start) = none := by
    simp [gf_qselect_range]
  rw [quantile_general v start end_ (end_ - start) 100 _ rfl hN (by norm_num) hp, hf]
  have h1 : ¬ (end_ - start = 0) := by omega
  have h2 : ¬ (end_ - start = end_ - start - 1) := by omega
  simp only [Int.toNat_ofNat, h1, h2, if_false, Int.cast_natCast, if_true, hsel,
    Option.none_bind]

theorem quantile_100_of_one (v : List ℚ) (start : ℕ) :
    gf_array_dquantile_range v start (start + 1) 100 =
      some (gf_array_dmax_range v start (start + 1), v) := by
  simp [gf_array_dquantile_range, gf_array_dmax_range, slice]

theorem quantile_100_of_two (v : List ℚ) (start : ℕ) (h2 : start + 2 ≤ v.length) :
    gf_array_dquantile_range v start (start + 2) 100 =
      some (gf_array_dmax_range v start (start + 2), v) := by
  have h1 : start + 2 - start = 2 := by omega
  have hs : slice v (start + 1) (start + 2) = [rd v (start + 1)] := by
    rw [slice_cons v (start + 1) (start + 2) (by omega) h2]
    simp [slice]
  have h100 : (100 : ℚ) > 50 := by norm_num
  simp only [gf_array_dquantile_range, h1, gf_array_dmax_range, hs, List.foldl_cons,
    List.foldl_nil, MAX, h100, if_true]
  have h3 : start + 2 - 1 = start + 1 := by omega
  rw [h3]
  norm_num
  split_ifs with h4 h5 h5
  · exact absurd h5 (not_lt_of_lt h4)
  · rfl
  · rfl
  · exact le_antisymm (not_lt.mp h5) (not_lt.mp h4)

theorem quantile_by_position_50 (s : List ℚ) (N : ℕ) (hs : s.length = N) (hN : 4 ≤ N) :
    quantile_by_position s N 50 = standard_median s := by
  unfold quantile_by_position standard_median
  rw [hs]
  simp only []
  rcases Nat.even_or_odd' N with ⟨m, hm | hm⟩
  · have hp : (50 * (N : ℚ) / 100) = ((m : ℤ) : ℚ) := by
      rw [hm]
      push_cast
      ring
    have hm2 : 2 ≤ m := by omega
    have hp1 : ¬ (((m : ℤ) : ℚ) < 1) := by
      have : (1 : ℚ) ≤ ((m : ℤ) : ℚ) := by exact_mod_cast (by omega : 1 ≤ m)
      linarith
    have hmod : ¬ (N % 2 = 1) := by omega
    have hdiv : N / 2 = m := by omega
    rw [hp, Int.floor_intCast]
    simp only [hp1, if_false, if_true, Int.toNat_ofNat, hmod, hdiv]
  · have hp : (50 * (N : ℚ) / 100) = ((m : ℤ) : ℚ) + 1 / 2 := by
      rw [hm]
      push_cast
      ring
    have hm2 : 2 ≤ m := by omega
    have hmq : (2 : ℚ) ≤ ((m : ℤ) : ℚ) := by exact_mod_cast hm2
    have hf : ⌊((m : ℤ) : ℚ) + 1 / 2⌋ = (m : ℤ) := by
      rw [Int.floor_eq_iff]
      constructor <;> linarith
    have hr : round (((m : ℤ) : ℚ) + 1 / 2) = (m : ℤ) + 1 := by
      rw [round_eq, Int.floor_eq_iff]
      push_cast
      constructor <;> linarith
    have hp1 : ¬ (((m : ℤ) : ℚ) + 1 / 2 < 1) := by linarith
    have hint : ¬ (((m : ℤ) : ℚ) = ((m : ℤ) : ℚ) + 1 / 2) := by
      intro h
      linarith
    have hmax : ¬ ((m : ℤ) = (N : ℤ) - 1 ∨ (m : ℤ) + 1 = (N : ℤ) - 1) := by omega
    have hmod : N % 2 = 1 := by omega
    have hdiv : (N - 1) / 2 = m := by omega
    rw [hp, hf, hr]
    simp only [hp1, hint, hmax, if_false, if_true, Int.toNat_ofNat, hmod, hdiv]

/-- On every range whose size is not 3 the quantile at 50 is the standard
median. -/
theorem median_standard (v : List ℚ) (start end_ : ℕ) (hN : 1 ≤ end_ - start)
    (h3 : end_ - start ≠ 3) (h2 : end_ ≤ v.length) :
    ∃ w, gf_array_dmedian_range v start end_ =
        some (standard_median (sorted v start end_), w) ∧
      (slice w start end_).Perm (slice v start end_) := by
  have hlen := sorted_length v start end_ h2
  have hlt : start < end_ := by omega
  by_cases h1 : end_ - start = 1
  · refine ⟨v, ?_, List.Perm.refl _⟩
    have hmin := dmin_eq_sorted v start end_ hlt h2
    have hsl : slice v (start + 1) end_ = [] := by
      have := slice_length v (start + 1) end_ h2
      exact List.length_eq_zero.mp (by omega)
    simp only [gf_array_dmin_range, hsl, List.foldl_nil] at hmin
    simp only [gf_array_dmedian_range, gf_array_dquantile_range, h1, if_true, standard_median,
      hlen, Nat.sub_self, Nat.zero_div, ← hmin]
  · by_cases h22 : end_ - start = 2
    · refine ⟨v, ?_, List.Perm.refl _⟩
      have hmin := dmin_eq_sorted v start end_ hlt h2
      have hmax := dmax_eq_sorted v start end_ hlt h2
      have hsl : slice v (start + 1) end_ = [rd v (end_ - 1)] := by
        rw [slice_cons v (start + 1) end_ (by omega) h2]
        have h5 : start + 1 = end_ - 1 := by omega
        have h6 := slice_length v (start + 1 + 1) end_ h2
        rw [List.length_eq_zero.mp (by omega : (slice v (start + 1 + 1) end_).length = 0), h5]
      simp only [gf_array_dmin_range, hsl, List.foldl_cons, List.foldl_nil] at hmin
      simp only [gf_array_dmax_range, hsl, List.foldl_cons, List.foldl_nil, h22] at hmax
      have hq1 : ¬ ((50 : ℚ) > 50) := by norm_num
      have hq2 : ¬ ((50 : ℚ) < 50) := by norm_num
      have h21 : ¬ ((2 : ℕ) = 1) := by decide
      have h20 : (2 : ℕ) % 2 ≠ 1 := by decide
      have h2a : (2 : ℕ) / 2 - 1 = 0 := by decide
      have h2b : (2 : ℕ) / 2 = 1 := by decide
      have h2c : (2 : ℕ) - 1 = 1 := by decide
      rw [h2c] at hmax
      simp only [gf_array_dmedian_range, gf_array_dquantile_range, h22, h21, hq1, hq2, if_false,
        if_true, standard_median, hlen, h20, h2a, h2b]
      rw [← hmin, ← hmax]
      split_ifs with h4 h5 h5
      · exact absurd h5 (not_lt_of_lt h4)
      · rw [add_comm]
      · rfl
      · rw [le_antisymm (not_lt.mp h5) (not_lt.mp h4)]
    · have h4 : 4 ≤ end_ - start := by omega
      obtain ⟨w, hw, hperm, -⟩ :=
        quantile_eval v start end_ 50 (by omega) h2 (by norm_num) (by norm_num)
      refine ⟨w, ?_, hperm⟩
      rw [quantile_by_position_50 _ _ hlen h4] at hw
      exact hw

/-! ## The two dispatchers -/

/-- The two dispatchers agree on the names that both compare correctly. -/
theorem switch_name_code_agree (H : Host) (fname : String) (v : List ℚ) (start end_ : ℕ)
    (h : fname ∈ ["sum", "mean", "sd", "max", "min", "median", "iqr", "semean", "sebinomial",
      "skewness", "kurtosis"]) :
    gf_switch_fun H fname v start end_ =
      gf_switch_fun_code H (gf_code_fun H fname) v start end_ := by
  simp only [List.mem_cons, List.mem_singleton, List.not_mem_nil, or_false] at h
  rcases h with h | h | h | h | h | h | h | h | h | h | h <;> subst h <;>
    simp only [gf_switch_fun, gf_code_fun, String.reduceEq, if_true, if_false] <;>
    norm_num [gf_switch_fun_code, gf_array_dmedian_range]

/-! ## Worked examples -/

theorem example_summary :
    gf_array_dsum_range [3, 7, 1, 9, 2] 0 5 = 22 ∧
      gf_array_dmean_range [3, 7, 1, 9, 2] 0 5 = 22 / 5 ∧
      gf_array_dmin_range [3, 7, 1, 9, 2] 0 5 = 1 ∧
      gf_array_dmax_range [3, 7, 1, 9, 2] 0 5 = 9 ∧
      gf_array_dmedian_range [3, 7, 1, 9, 2] 0 5 = some (3, [1, 2, 3, 7, 9]) ∧
      sorted [3, 7, 1, 9, 2] 0 5 = [1, 2, 3, 7, 9] := by
  decide!

theorem example_sebinom (H : Host) :
    gf_array_dsebinom_range H [0, 1, 1, 0, 1] 0 5 = H.sqrt (3 / 5 * (2 / 5) / 5) ∧
      gf_array_dsebinom_range H [0, 2, 1] 0 3 = H.SV_missval := by
  constructor
  · norm_num [gf_array_dsebinom_range, slice, gf_array_dmean_range, gf_array_dsum_range]
  · norm_num [gf_array_dsebinom_range, slice]

/-! ## The position and the resolution of the quantile -/

/-- For a size other than 1 and 2, `gf_array_dquantile_range` is the resolution
of the position it computes. -/
theorem quantile_eq_resolve (v : List ℚ) (start end_ : ℕ) (q : ℚ)
    (h1 : end_ - start ≠ 1) (h2 : end_ - start ≠ 2) :
    gf_array_dquantile_range v start end_ q =
      quantile_resolve v start end_ (quantile_position (end_ - start) q) := by
  unfold gf_array_dquantile_range quantile_resolve quantile_position position_general
    position_round
  by_cases hm : (end_ - start) % 100 = 0
  · simp only [h1, h2, hm, if_false, ne_eq, not_true_eq_false]
  · simp only [h1, h2, hm, if_false, ne_eq, not_false_eq_true, if_true]

theorem c_round_intCast (z : ℤ) : c_round (z : ℚ) = z := by
  unfold c_round
  have h1 : ∀ y : ℤ, ⌊(y : ℚ) + 1 / 2⌋ = y := by
    intro y
    rw [Int.floor_eq_iff]
    constructor <;> linarith
  split_ifs with h
  · exact h1 z
  · have h2 : -(z : ℚ) = ((-z : ℤ) : ℚ) := by push_cast; ring
    rw [h2, h1 (-z)]
    ring

theorem c_round_eq_self_iff (p : ℚ) : ((c_round p : ℤ) : ℚ) = p ↔ ∃ z : ℤ, (z : ℚ) = p := by
  constructor
  · intro h
    exact ⟨c_round p, h⟩
  · rintro ⟨z, hz⟩
    rw [← hz, c_round_intCast]

/-- For a size that is a multiple of 100 the two formulations of the position
give the same `floor (qdbl)`, `qfoo` and `rfoo`. -/
theorem position_round_eq_general (N : ℕ) (q : ℚ) (hm : N % 100 = 0) (hN : 1 ≤ N) :
    position_round N q = position_general N q := by
  have h1 : N = 100 * (N / 100) := by omega
  have h2 : (N : ℚ) = 100 * ((N / 100 : ℕ) : ℚ) := by exact_mod_cast h1
  have h3 : ((N / 100 : ℕ) : ℚ) ≠ 0 := by
    have : 0 < N / 100 := by omega
    exact_mod_cast this.ne'
  have hq : q * ((N / 100 : ℕ) : ℚ) = q * (N : ℚ) / 100 := by
    rw [h2]
    ring
  unfold position_round position_general
  simp only [hq]
  congr 2
  rw [h2]
  congr 1
  apply propext
  rw [div_eq_iff h3, div_eq_iff (by positivity)]
  constructor
  · intro h
    rw [h]
    ring
  · intro h
    have h5 : (100 : ℚ) ≠ 0 := by norm_num
    apply mul_right_cancel₀ h5
    rw [h]
    ring

/-- In the general formulation `rfoo` holds exactly when `q * N / 100` is an
integer. -/
theorem position_general_rfoo (N : ℕ) (q : ℚ) (hN : 1 ≤ N) :
    (position_general N q).2.2 = true ↔ ∃ z : ℤ, (z : ℚ) = q * (N : ℚ) / 100 := by
  have hN0 : (N : ℚ) ≠ 0 := by
    have : 0 < N := by omega
    exact_mod_cast this.ne'
  unfold position_general
  simp only [decide_eq_true_eq]
  rw [div_eq_iff hN0]
  constructor
  · intro h
    apply (c_round_eq_self_iff _).mp
    have h5 : (100 : ℚ) ≠ 0 := by norm_num
    apply mul_right_cancel₀ h5
    rw [h]
    ring
  · intro h
    rw [(c_round_eq_self_iff _).mpr h]
    ring

theorem quantile_position_eq_general (N : ℕ) (q : ℚ) (hN : 1 ≤ N) :
    quantile_position N q = position_general N q := by
  unfold quantile_position
  by_cases hm : N % 100 = 0
  · simp only [hm, ne_eq, not_true_eq_false, if_false]
    exact position_round_eq_general N q hm hN
  · simp only [hm, ne_eq, not_false_eq_true, if_true]

/-- The codes `gf_code_fun` gives to the seventeen names it compares
correctly: they are pairwise distinct, and negative except for the median. -/
theorem code_of_fixed_names (H : Host) :
    gf_code_fun H "sum" = -1 ∧ gf_code_fun H "mean" = -2 ∧ gf_code_fun H "sd" = -3 ∧
      gf_code_fun H "max" = -4 ∧ gf_code_fun H "min" = -5 ∧ gf_code_fun H "count" = -6 ∧
      gf_code_fun H "percent" = -7 ∧ gf_code_fun H "median" = 50 ∧
      gf_code_fun H "iqr" = -9 ∧ gf_code_fun H "first" = -10 ∧
      gf_code_fun H "firstnm" = -11 ∧ gf_code_fun H "last" = -12 ∧
      gf_code_fun H "lastnm" = -13 ∧ gf_code_fun H "semean" = -15 ∧
      gf_code_fun H "sebinomial" = -16 ∧ gf_code_fun H "skewness" = -19 ∧
      gf_code_fun H "kurtosis" = -20 ∧ gf_code_fun H "sepoisson " = -17 := by
  simp only [gf_code_fun, String.reduceEq, if_true, if_false, and_self]

theorem slice_congr (v w : List ℚ) (a b : ℕ) (hv : b ≤ v.length) (hw : b ≤ w.length)
    (h : ∀ i, a ≤ i → i < b → rd w i = rd v i) : slice w a b = slice v a b := by
  apply List.ext_getElem
  · rw [slice_length v a b hv, slice_length w a b hw]
  · intro n h1 h2
    have hn : a + n < b := by
      rw [slice_length w a b hw] at h1
      omega
    rw [← List.getD_eq_getElem _ 0 h1, ← List.getD_eq_getElem _ 0 h2, slice_getD w a b n hn,
      slice_getD v a b n hn]
    exact h (a + n) (by omega) hn

/-! ## The ranks handed to the selection -/

theorem position_general_nonneg (N : ℕ) (q : ℚ) (hq : 0 ≤ q) :
    position_general N q =
      (⌊q * (N : ℚ) / 100⌋, ⌊q * (N : ℚ) / 100 + 1 / 2⌋,
        decide (((⌊q * (N : ℚ) / 100 + 1 / 2⌋ : ℤ) : ℚ) * 100 / (N : ℚ) = q)) := by
  have hp0 : 0 ≤ q * (N : ℚ) / 100 := by positivity
  simp only [position_general, c_floor, c_round_nonneg _ hp0]

/-- For `N ≥ 3` and `0 < q < 100` every rank handed to the selection is within
`0 ≤ k < N`. -/
theorem selection_ranks_in_range (N : ℕ) (q : ℚ) (hN : 3 ≤ N) (hq0 : 0 < q) (hq1 : q < 100) :
    ∀ k ∈ selection_ranks N q, 0 ≤ k ∧ k < (N : ℤ) := by
  have hNpos : (0 : ℚ) < (N : ℚ) := by
    have : 0 < N := by omega
    exact_mod_cast this
  have hp0 : 0 < q * (N : ℚ) / 100 := by positivity
  have hpN : q * (N : ℚ) / 100 < (N : ℚ) := by
    rw [div_lt_iff₀ (by norm_num : (0 : ℚ) < 100)]
    nlinarith
  have hrf := position_general_rfoo N q (by omega)
  have h1 : ¬ (N = 1) := by omega
  have h2 : ¬ (N = 2) := by omega
  unfold selection_ranks
  rw [quantile_position_eq_general N q (by omega)]
  rw [position_general_nonneg N q (le_of_lt hq0)] at hrf ⊢
  generalize hpdef : q * (N : ℚ) / 100 = p at hp0 hpN hrf
  have hf0 : 0 ≤ ⌊p⌋ := Int.floor_nonneg.mpr (le_of_lt hp0)
  have hfle : ((⌊p⌋ : ℤ) : ℚ) ≤ p := Int.floor_le p
  have hfN : ⌊p⌋ < (N : ℤ) := by
    have h3 : ((⌊p⌋ : ℤ) : ℚ) < (((N : ℤ)) : ℚ) := by
      push_cast
      linarith
    exact_mod_cast h3
  simp only [h1, h2, if_false, to_GT_size, hf0, if_true]
  intro k hk
  by_cases hz : ⌊p⌋.toNat = 0
  · simp only [hz, if_true, List.not_mem_nil] at hk
  · simp only [hz, if_false] at hk
    by_cases hr : decide (((⌊p + 1 / 2⌋ : ℤ) : ℚ) * 100 / (N : ℚ) = q) = true
    · obtain ⟨z, hzp⟩ := hrf.mp hr
      have hround : ⌊p + 1 / 2⌋ = ⌊p⌋ := by
        rw [← hzp, Int.floor_intCast, Int.floor_eq_iff]
        constructor <;> linarith
      rw [hr, hround] at hk
      simp only [if_true] at hk
      split_ifs at hk
      · simp only [List.mem_singleton] at hk
        omega
      · simp only [List.mem_cons, List.mem_singleton, List.not_mem_nil, or_false] at hk
        omega
    · simp only [hr, if_false, Bool.false_eq_true] at hk
      split_ifs at hk
      · simp only [List.not_mem_nil] at hk
      · simp only [List.mem_singleton] at hk
        omega

theorem select_rank_defined (v : List ℚ) (start end_ : ℕ) (z : ℤ) (h1 : start < end_)
    (h2 : end_ ≤ v.length) (hz : 0 ≤ z ∧ z < ((end_ - start : ℕ) : ℤ)) :
    ∃ x w, to_GT_size z = some z.toNat ∧
      gf_qselect_range v start end_ z.toNat = some (x, w) ∧ w.length = v.length := by
  obtain ⟨w, hw, hlen, -⟩ := qselect_range_eval v start end_ z.toNat h1 h2 (by omega)
  exact ⟨_, w, by simp only [to_GT_size, hz.1, if_true], hw, hlen⟩

theorem select_rank_undefined {α : Type} (v : List ℚ) (start end_ : ℕ) (z : ℤ)
    (f : ℚ × List ℚ → Option α) (hz : ¬ (0 ≤ z ∧ z < ((end_ - start : ℕ) : ℤ))) :
    ((to_GT_size z).bind fun k => (gf_qselect_range v start end_ k).bind f) = none := by
  by_cases h0 : 0 ≤ z
  · have h3 : ¬ (z.toNat < end_ - start) := by
      intro h
      apply hz
      exact ⟨h0, by omega⟩
    simp only [to_GT_size, h0, if_true, Option.some_bind, gf_qselect_range, h3, and_false,
      if_false, Option.none_bind]
  · simp only [to_GT_size, h0, if_false, Option.none_bind]

/-- On a range of three entries or more inside the array,
`gf_array_dquantile_range` has a defined result exactly when `qth` is defined
and every rank it hands to the selection is within the selection contract. -/
theorem quantile_defined_iff (v : List ℚ) (start end_ : ℕ) (q : ℚ) (hN : 3 ≤ end_ - start)
    (h2 : end_ ≤ v.length) :
    (gf_array_dquantile_range v start end_ q).isSome = true ↔
      (quantile_qth (end_ - start) q).isSome = true ∧
        ∀ k ∈ selection_ranks (end_ - start) q, 0 ≤ k ∧ k < ((end_ - start : ℕ) : ℤ) := by
  have hlt : start < end_ := by omega
  have hn1 : ¬ (end_ - start = 1) := by omega
  have hn2 : ¬ (end_ - start = 2) := by omega
  rw [quantile_eq_resolve v start end_ q hn1 hn2]
  unfold quantile_resolve selection_ranks quantile_qth
  generalize quantile_position (end_ - start) q = pos
  obtain ⟨a, b, r⟩ := pos
  simp only [hn1, hn2, if_false]
  cases ha : to_GT_size a with
  | none => simp
  | some qth =>
    simp only [Option.some_bind, Option.isSome_some, true_and]
    by_cases hz : qth = 0
    · simp [hz]
    · simp only [hz, if_false]
      cases r with
      | true =>
        simp only [if_true]
        by_cases hd : (decide (qth = end_ - start - 1) ||
            decide ((b : ℚ) = ((end_ - start - 1 : ℕ) : ℚ))) = true
        · simp only [hd, if_true, List.mem_singleton, forall_eq]
          by_cases hb : 0 ≤ b - 1 ∧ b - 1 < ((end_ - start : ℕ) : ℤ)
          · obtain ⟨x, w, e1, e2, -⟩ := select_rank_defined v start end_ (b - 1) hlt h2 hb
            simp only [e1, Option.some_bind, e2, Option.isSome_some, hb, and_self]
          · rw [select_rank_undefined v start end_ (b - 1) _ hb]
            simp only [Option.isSome_none, Bool.false_eq_true, false_iff]
            exact hb
        · simp only [hd, if_false, List.mem_cons, List.mem_singleton, List.not_mem_nil,
            or_false, forall_eq_or_imp, forall_eq, Bool.false_eq_true]
          by_cases hb1 : 0 ≤ b ∧ b < ((end_ - start : ℕ) : ℤ)
          · obtain ⟨x, w, e1, e2, hwl⟩ := select_rank_defined v start end_ b hlt h2 hb1
            simp only [e1, Option.some_bind, e2]
            by_cases hb : 0 ≤ b - 1 ∧ b - 1 < ((end_ - start : ℕ) : ℤ)
            · obtain ⟨x', w', e3, e4, -⟩ :=
                select_rank_defined w start end_ (b - 1) hlt (by omega) hb
              simp only [e3, Option.some_bind, e4, Option.isSome_some, hb1, hb, and_self]
            · rw [select_rank_undefined w start end_ (b - 1) _ hb]
              simp only [Option.isSome_none, Bool.false_eq_true, false_iff]
              exact fun h => hb h.2
          · rw [select_rank_undefined v start end_ b _ hb1]
            simp only [Option.isSome_none, Bool.false_eq_true, false_iff]
            exact fun h => hb1 h.1
      | false =>
        simp only [Bool.false_eq_true, if_false]
        by_cases hd : (decide (qth = end_ - start - 1) ||
            decide ((b : ℚ) = ((end_ - start - 1 : ℕ) : ℚ))) = true
        · simp [hd]
        · simp only [hd, if_false, List.mem_singleton, forall_eq, Bool.false_eq_true]
          by_cases hk : qth < end_ - start
          · obtain ⟨w, hw, -⟩ := qselect_range_eval v start end_ qth hlt h2 hk
            simp only [hw, Option.isSome_some, true_iff]
            omega
          · simp only [gf_qselect_range, hk, and_false, if_false, Option.isSome_none,
              Bool.false_eq_true, false_iff, not_and]
            omega

/-! ## Central moments -/

/-- The sameness test succeeds exactly on the ranges whose entries all equal
the first. -/
theorem dsame_iff_constant (v : List ℚ) (start end_ : ℕ) (h1 : start < end_)
    (h2 : end_ ≤ v.length) :
    gf_array_dsame (v.drop start) (end_ - start) = true ↔
      ∀ i, start ≤ i → i < end_ → rd v i = rd v start := by
  constructor
  · intro hd i hi1 hi2
    rcases Nat.eq_or_lt_of_le hi1 with h | h
    · rw [h]
    · have h0 : rd (v.drop start) 0 = rd v start := by
        simp only [rd, List.getD_eq_getElem?_getD, List.getElem?_drop, Nat.add_zero]
      simp only [gf_array_dsame, Bool.not_eq_true', List.any_eq_false, decide_eq_true_eq,
        ne_eq, not_not] at hd
      have hmem : rd v i ∈ slice (v.drop start) 1 (end_ - start) := by
        rw [slice_drop]
        have h4 : start + (end_ - start) = end_ := by omega
        rw [h4]
        exact (mem_slice_iff v (start + 1) end_ h2 _).mpr ⟨i, by omega, hi2, rfl⟩
      rw [← hd _ hmem, h0]
  · intro hc
    exact dsame_of_constant v start end_ (rd v start) h1 h2 hc

theorem skew_sums_eq (l : List ℚ) (m : ℚ) :
    skew_sums l m =
      ((l.map (fun x => (x - m) * (x - m))).sum,
        (l.map (fun x => (x - m) * (x - m) * (x - m))).sum) := by
  have h : ∀ (t : List ℚ) (a b : ℚ),
      t.foldl (fun (acc : ℚ × ℚ) x => (acc.1 + (x - m) * (x - m),
          acc.2 + (x - m) * (x - m) * (x - m))) (a, b) =
        (a + (t.map (fun x => (x - m) * (x - m))).sum,
          b + (t.map (fun x => (x - m) * (x - m) * (x - m))).sum) := by
    intro t
    induction t with
    | nil => intro a b; simp
    | cons x t ih =>
      intro a b
      simp only [List.foldl_cons, ih, List.map_cons, List.sum_cons]
      ext <;> simp only [] <;> ring
  have h2 := h l 0 0
  simp only [zero_add] at h2
  exact h2

theorem kurt_sums_eq (l : List ℚ) (m : ℚ) :
    kurt_sums l m =
      ((l.map (fun x => (x - m) * (x - m))).sum,
        (l.map (fun x => (x - m) * (x - m) * ((x - m) * (x - m)))).sum) := by
  have h : ∀ (t : List ℚ) (a b : ℚ),
      t.foldl (fun (acc : ℚ × ℚ) x => (acc.1 + SQUARE (x - m),
          acc.2 + SQUARE (x - m) * SQUARE (x - m))) (a, b) =
        (a + (t.map (fun x => (x - m) * (x - m))).sum,
          b + (t.map (fun x => (x - m) * (x - m) * ((x - m) * (x - m)))).sum) := by
    intro t
    induction t with
    | nil => intro a b; simp
    | cons x t ih =>
      intro a b
      simp only [List.foldl_cons]
      rw [ih]
      simp only [List.map_cons, List.sum_cons, SQUARE]
      ext <;> simp only [] <;> ring
  have h2 := h l 0 0
  simp only [zero_add] at h2
  exact h2

theorem sum_sq_dev_nonneg (l : List ℚ) (m : ℚ) :
    0 ≤ (l.map (fun x => (x - m) * (x - m))).sum := by
  apply List.sum_nonneg
  intro y hy
  obtain ⟨x, -, hx⟩ := List.mem_map.mp hy
  rw [← hx]
  exact mul_self_nonneg _

theorem sum_sq_dev_pos (l : List ℚ) (m : ℚ) (h : ∃ x ∈ l, x ≠ m) :
    0 < (l.map (fun x => (x - m) * (x - m))).sum := by
  induction l with
  | nil =>
    obtain ⟨x, hx, -⟩ := h
    simp at hx
  | cons a t ih =>
    simp only [List.map_cons, List.sum_cons]
    obtain ⟨x, hx, hne⟩ := h
    rcases List.mem_cons.mp hx with hxa | hxt
    · have h3 : 0 < (a - m) * (a - m) := by
        rw [← hxa]
        exact mul_self_pos.mpr (sub_ne_zero.mpr hne)
      have h4 := sum_sq_dev_nonneg t m
      linarith
    · have h3 := ih ⟨x, hxt, hne⟩
      have h4 : 0 ≤ (a - m) * (a - m) := mul_self_nonneg _
      linarith

/-- A range that is not constant has an entry that differs from any given
value, its mean included. -/
theorem exists_ne_of_not_constant (v : List ℚ) (start end_ : ℕ) (h1 : start < end_)
    (h2 : end_ ≤ v.length) (m : ℚ)
    (hnc : ¬ ∀ i, start ≤ i → i < end_ → rd v i = rd v start) :
    ∃ x ∈ slice v start end_, x ≠ m := by
  by_contra hcon
  push_neg at hcon
  apply hnc
  intro i hi1 hi2
  rw [hcon _ ((mem_slice_iff v start end_ h2 _).mpr ⟨i, hi1, hi2, rfl⟩),
    hcon _ ((mem_slice_iff v start end_ h2 _).mpr ⟨start, le_refl _, h1, rfl⟩)]

/-- The second central moment of a range that is not constant is positive. -/
theorem second_moment_pos (v : List ℚ) (start end_ : ℕ) (h1 : start < end_)
    (h2 : end_ ≤ v.length) (hnc : ¬ ∀ i, start ≤ i → i < end_ → rd v i = rd v start) :
    0 < ((slice v start end_).map (fun x => (x - gf_array_dmean_range v start end_) *
      (x - gf_array_dmean_range v start end_))).sum / ((end_ - start : ℕ) : ℚ) := by
  have hNpos : (0 : ℚ) < ((end_ - start : ℕ) : ℚ) := by
    have : 0 < end_ - start := by omega
    exact_mod_cast this
  exact div_pos (sum_sq_dev_pos _ _ (exists_ne_of_not_constant v start end_ h1 h2 _ hnc)) hNpos

theorem heron_sqrt_pos (x : ℚ) (hx : 0 < x) (n : ℕ) : 0 < heron_sqrt x n := by
  induction n with
  | zero =>
    simp only [heron_sqrt]
    linarith
  | succ k ih =>
    simp only [heron_sqrt]
    have h := div_pos hx ih
    linarith

theorem heronHost_sqrt_pos (x : ℚ) (hx : 0 < x) : 0 < heronHost.sqrt x := by
  simp only [heronHost, hx, if_true]
  exact heron_sqrt_pos x hx 5

theorem sum_mul_self_le (l : List ℚ) (h : ∀ x ∈ l, 0 ≤ x) :
    (l.map (fun s => s * s)).sum ≤ l.sum * l.sum := by
  induction l with
  | nil => simp
  | cons a t ih =>
    have ha : 0 ≤ a := h a (List.mem_cons_self _ _)
    have ht : ∀ x ∈ t, 0 ≤ x := fun x hx => h x (List.mem_cons_of_mem _ hx)
    have hs : 0 ≤ t.sum := List.sum_nonneg ht
    have h3 := ih ht
    simp only [List.map_cons, List.sum_cons]
    nlinarith [mul_nonneg ha hs]

theorem sum_cube_le (l : List ℚ) (h : ∀ x ∈ l, 0 ≤ x) :
    (l.map (fun s => s * s * s)).sum ≤ l.sum * (l.sum * l.sum) := by
  have h1 : (l.map (fun s => s * s * s)).sum ≤ (l.map (fun s => s * (l.sum * l.sum))).sum := by
    apply List.sum_le_sum
    intro s hs
    have h0 : 0 ≤ s := h s hs
    have hle : s ≤ l.sum := List.single_le_sum h s hs
    have h2 : s * s ≤ l.sum * l.sum := mul_le_mul hle hle h0 (le_trans h0 hle)
    calc s * s * s = s * (s * s) := by ring
      _ ≤ s * (l.sum * l.sum) := mul_le_mul_of_nonneg_left h2 h0
  have h3 := List.sum_map_mul_right l (fun s => s) (l.sum * l.sum)
  simp only [List.map_id'] at h3
  rw [h3] at h1
  exact h1

theorem sum_sq_le_length_mul (l : List ℚ) :
    l.sum * l.sum ≤ (l.length : ℚ) * (l.map (fun a => a * a)).sum := by
  induction l with
  | nil => simp
  | cons a t ih =>
    simp only [List.map_cons, List.sum_cons, List.length_cons, Nat.cast_add, Nat.cast_one]
    have hq : 0 ≤ (t.map (fun a => a * a)).sum := by
      apply List.sum_nonneg
      intro y hy
      obtain ⟨x, -, hx⟩ := List.mem_map.mp hy
      rw [← hx]
      exact mul_self_nonneg _
    rcases Nat.eq_zero_or_pos t.length with h0 | hpos
    · have ht : t = [] := List.length_eq_zero.mp h0
      subst ht
      simp
    · have hn : (0 : ℚ) < (t.length : ℚ) := by exact_mod_cast hpos
      have h3 : 2 * a * t.sum * (t.length : ℚ) ≤
          (t.length : ℚ) * (t.length : ℚ) * (a * a) + t.sum * t.sum := by
        nlinarith [sq_nonneg ((t.length : ℚ) * a - t.sum)]
      have h4 : 2 * a * t.sum * (t.length : ℚ) ≤
          ((t.length : ℚ) * (a * a) + (t.map (fun a => a * a)).sum) * (t.length : ℚ) := by
        nlinarith
      have h5 : 2 * a * t.sum ≤ (t.length : ℚ) * (a * a) + (t.map (fun a => a * a)).sum :=
        le_of_mul_le_mul_right h4 hn
      nlinarith

/-- The kurtosis of a range that is not constant is at most the size of the
range. -/
theorem kurt_value_le_size (l : List ℚ) (m : ℚ) (hl : 0 < l.length)
    (hpos : 0 < (l.map (fun x => (x - m) * (x - m))).sum) :
    (l.map (fun x => (x - m) * (x - m) * ((x - m) * (x - m)))).sum / (l.length : ℚ) /
        ((l.map (fun x => (x - m) * (x - m))).sum / (l.length : ℚ) *
          ((l.map (fun x => (x - m) * (x - m))).sum / (l.length : ℚ))) ≤ (l.length : ℚ) := by
  have hn : (0 : ℚ) < (l.length : ℚ) := by exact_mod_cast hl
  have hq : (l.map (fun x => (x - m) * (x - m) * ((x - m) * (x - m)))).sum ≤
      (l.map (fun x => (x - m) * (x - m))).sum * (l.map (fun x => (x - m) * (x - m))).sum := by
    have h3 := sum_mul_self_le (l.map (fun x => (x - m) * (x - m))) (by
      intro y hy
      obtain ⟨x, -, hx⟩ := List.mem_map.mp hy
      rw [← hx]
      exact mul_self_nonneg _)
    rw [List.map_map] at h3
    exact h3
  generalize (l.map (fun x => (x - m) * (x - m) * ((x - m) * (x - m)))).sum = Q at hq
  generalize (l.map (fun x => (x - m) * (x - m))).sum = S at hq hpos
  generalize (l.length : ℚ) = n at hn
  rw [div_le_iff₀ (by positivity), div_le_iff₀ hn]
  have h5 : n * (S / n * (S / n)) * n = S * S := by
    field_simp
    ring
  rw [h5]
  exact hq

/-- The square of the skewness of a range that is not constant is at most
eight times the square of the size, when the square of the square root used
is at least half its argument. -/
theorem skew_value_sq_le (l : List ℚ) (m r : ℚ) (hl : 0 < l.length)
    (hpos : 0 < (l.map (fun x => (x - m) * (x - m))).sum) (hr : 0 < r)
    (hacc : (l.map (fun x => (x - m) * (x - m))).sum / (l.length : ℚ) ≤ 2 * (r * r)) :
    ((l.map (fun x => (x - m) * (x - m) * (x - m))).sum / (l.length : ℚ) / (r * r * r)) *
        ((l.map (fun x => (x - m) * (x - m) * (x - m))).sum / (l.length : ℚ) / (r * r * r)) ≤
      8 * ((l.length : ℚ) * (l.length : ℚ)) := by
  have hn : (0 : ℚ) < (l.length : ℚ) := by exact_mod_cast hl
  have hcs := sum_sq_le_length_mul (l.map (fun x => (x - m) * (x - m) * (x - m)))
  rw [List.map_map, List.length_map] at hcs
  have hcube := sum_cube_le (l.map (fun x => (x - m) * (x - m))) (by
      intro y hy
      obtain ⟨x, -, hx⟩ := List.mem_map.mp hy
      rw [← hx]
      exact mul_self_nonneg _)
  rw [List.map_map] at hcube
  have hsame : (l.map ((fun a => a * a) ∘ fun x => (x - m) * (x - m) * (x - m))).sum =
      (l.map ((fun s => s * s * s) ∘ fun x => (x - m) * (x - m))).sum := by
    congr 1
    apply List.map_congr_left
    intro x _
    simp only [Function.comp]
    ring
  rw [hsame] at hcs
  generalize (l.map (fun x => (x - m) * (x - m) * (x - m))).sum = T at hcs
  generalize (l.map ((fun s => s * s * s) ∘ fun x => (x - m) * (x - m))).sum = C at hcs hcube
  generalize (l.map (fun x => (x - m) * (x - m))).sum = S at hcube hpos hacc
  generalize (l.length : ℚ) = n at hn hcs hacc
  have hT : T * T ≤ n * (S * (S * S)) := le_trans hcs (mul_le_mul_of_nonneg_left hcube hn.le)
  have hS : S ≤ 2 * (r * r) * n := (div_le_iff₀ hn).mp hacc
  have hr3 : 0 < r * r * r := by positivity
  have hS3 : S * (S * S) ≤ (2 * (r * r) * n) * ((2 * (r * r) * n) * (2 * (r * r) * n)) := by
    have h2 : S * S ≤ (2 * (r * r) * n) * (2 * (r * r) * n) :=
      mul_le_mul hS hS hpos.le (le_trans hpos.le hS)
    exact mul_le_mul hS h2 (mul_nonneg hpos.le hpos.le) (le_trans hpos.le hS)
  have hexp : T / n / (r * r * r) * (T / n / (r * r * r)) =
      T * T / (n * n * ((r * r * r) * (r * r * r))) := by
    field_simp
    left
    ring
  rw [hexp, div_le_iff₀ (by positivity)]
  calc T * T ≤ n * (S * (S * S)) := hT
    _ ≤ n * ((2 * (r * r) * n) * ((2 * (r * r) * n) * (2 * (r * r) * n))) :=
      mul_le_mul_of_nonneg_left hS3 hn.le
    _ = 8 * (n * n) * (n * n * ((r * r * r) * (r * r * r))) := by ring

theorem skew_range_by_cases (H : Host) (v : List ℚ) (start end_ : ℕ) :
    gf_array_dskew_range H v start end_ =
      (if skew_returns_missing H v start end_ = true then H.SV_missval
        else (skew_sums (slice v start end_) (gf_array_dmean_range v start end_)).2 /
            ((end_ - start : ℕ) : ℚ) /
          (H.sqrt ((skew_sums (slice v start end_) (gf_array_dmean_range v start end_)).1 /
              ((end_ - start : ℕ) : ℚ)) *
            H.sqrt ((skew_sums (slice v start end_) (gf_array_dmean_range v start end_)).1 /
              ((end_ - start : ℕ) : ℚ)) *
            H.sqrt ((skew_sums (slice v start end_) (gf_array_dmean_range v start end_)).1 /
              ((end_ - start : ℕ) : ℚ)))) := by
  unfold gf_array_dskew_range skew_returns_missing
  cases gf_array_dsame (v.drop start) (end_ - start) with
  | true => simp only [if_true, Bool.true_or]
  | false =>
    simp only [Bool.false_eq_true, if_false, Bool.false_or, Bool.not_eq_true',
      decide_eq_false_iff_not]
    split_ifs with h3
    · rfl
    · rfl

theorem kurt_range_by_cases (H : Host) (v : List ℚ) (start end_ : ℕ) :
    gf_array_dkurt_range H v start end_ =
      (if kurt_returns_missing v start end_ = true then H.SV_missval
        else (kurt_sums (slice v start end_) (gf_array_dmean_range v start end_)).2 /
            ((end_ - start : ℕ) : ℚ) /
          ((kurt_sums (slice v start end_) (gf_array_dmean_range v start end_)).1 /
              ((end_ - start : ℕ) : ℚ) *
            ((kurt_sums (slice v start end_) (gf_array_dmean_range v start end_)).1 /
              ((end_ - start : ℕ) : ℚ)))) := by
  unfold gf_array_dkurt_range kurt_returns_missing
  cases gf_array_dsame (v.drop start) (end_ - start) with
  | true => simp only [if_true, Bool.true_or]
  | false =>
    simp only [Bool.false_eq_true, if_false, Bool.false_or, Bool.not_eq_true',
      decide_eq_false_iff_not]
    split_ifs with h3
    · rfl
    · rfl

theorem skew_returns_missing_iff (H : Host) (v : List ℚ) (start end_ : ℕ)
    (h1 : start < end_) (h2 : end_ ≤ v.length) (hsqrt : ∀ x : ℚ, 0 < x → 0 < H.sqrt x) :
    skew_returns_missing H v start end_ = true ↔
      ∀ i, start ≤ i → i < end_ → rd v i = rd v start := by
  have hsame := dsame_iff_constant v start end_ h1 h2
  constructor
  · intro hret
    by_contra hnc
    have hd : gf_array_dsame (v.drop start) (end_ - start) = false := by
      rw [Bool.eq_false_iff]
      exact fun h => hnc (hsame.mp h)
    have hm2 : 0 < (skew_sums (slice v start end_) (gf_array_dmean_range v start end_)).1 /
        ((end_ - start : ℕ) : ℚ) := by
      rw [skew_sums_eq]
      exact second_moment_pos v start end_ h1 h2 hnc
    have hr := hsqrt _ hm2
    have haux := mul_pos (mul_pos hr hr) hr
    simp only [skew_returns_missing, hd, Bool.false_or, gt_iff_lt, haux, decide_True,
      Bool.not_true, Bool.false_eq_true] at hret
  · intro hc
    simp only [skew_returns_missing, hsame.mpr hc, Bool.true_or]

theorem kurt_returns_missing_iff (v : List ℚ) (start end_ : ℕ)
    (h1 : start < end_) (h2 : end_ ≤ v.length) :
    kurt_returns_missing v start end_ = true ↔
      ∀ i, start ≤ i → i < end_ → rd v i = rd v start := by
  have hsame := dsame_iff_constant v start end_ h1 h2
  constructor
  · intro hret
    by_contra hnc
    have hd : gf_array_dsame (v.drop start) (end_ - start) = false := by
      rw [Bool.eq_false_iff]
      exact fun h => hnc (hsame.mp h)
    have hm2 : 0 < (kurt_sums (slice v start end_) (gf_array_dmean_range v start end_)).1 /
        ((end_ - start : ℕ) : ℚ) := by
      rw [kurt_sums_eq]
      exact second_moment_pos v start end_ h1 h2 hnc
    simp only [kurt_returns_missing, hd, Bool.false_or, gt_iff_lt, hm2, decide_True,
      Bool.not_true, Bool.false_eq_true] at hret
  · intro hc
    simp only [kurt_returns_missing, hsame.mpr hc, Bool.true_or]

/-- When the missing value exceeds the size of the range, the value of
`gf_array_dkurt_range` is the missing value exactly on constant ranges. -/
theorem kurt_value_missing_iff (H : Host) (v : List ℚ) (start end_ : ℕ)
    (h1 : start < end_) (h2 : end_ ≤ v.length)
    (hbig : ((end_ - start : ℕ) : ℚ) < H.SV_missval) :
    gf_array_dkurt_range H v start end_ = H.SV_missval ↔
      ∀ i, start ≤ i → i < end_ → rd v i = rd v start := by
  have hiff := kurt_returns_missing_iff v start end_ h1 h2
  have hlen := slice_length v start end_ h2
  rw [kurt_range_by_cases]
  constructor
  · intro hval
    by_contra hnc
    have hret : ¬ (kurt_returns_missing v start end_ = true) := fun h => hnc (hiff.mp h)
    rw [if_neg hret] at hval
    have hpos := sum_sq_dev_pos _ (gf_array_dmean_range v start end_)
      (exists_ne_of_not_constant v start end_ h1 h2 (gf_array_dmean_range v start end_) hnc)
    have hle := kurt_value_le_size (slice v start end_) (gf_array_dmean_range v start end_)
      (by omega) hpos
    rw [kurt_sums_eq, ← hlen] at hval
    rw [← hlen] at hbig
    simp only [] at hval
    linarith
  · intro hc
    simp only [hiff.mpr hc, if_true]

/-- When the square of the square root used is at least half its argument and
the square of the missing value exceeds eight times the square of the size,
the value of `gf_array_dskew_range` is the missing value exactly on constant
ranges. -/
theorem skew_value_missing_iff (H : Host) (v : List ℚ) (start end_ : ℕ)
    (h1 : start < end_) (h2 : end_ ≤ v.length) (hsqrt : ∀ x : ℚ, 0 < x → 0 < H.sqrt x)
    (hacc : ∀ x : ℚ, 0 < x → x ≤ 2 * (H.sqrt x * H.sqrt x))
    (hbig : 8 * (((end_ - start : ℕ) : ℚ) * ((end_ - start : ℕ) : ℚ)) <
      H.SV_missval * H.SV_missval) :
    gf_array_dskew_range H v start end_ = H.SV_missval ↔
      ∀ i, start ≤ i → i < end_ → rd v i = rd v start := by
  have hiff := skew_returns_missing_iff H v start end_ h1 h2 hsqrt
  have hlen := slice_length v start end_ h2
  rw [skew_range_by_cases]
  constructor
  · intro hval
    by_contra hnc
    have hret : ¬ (skew_returns_missing H v start end_ = true) := fun h => hnc (hiff.mp h)
    rw [if_neg hret] at hval
    have hpos := sum_sq_dev_pos _ (gf_array_dmean_range v start end_)
      (exists_ne_of_not_constant v start end_ h1 h2 (gf_array_dmean_range v start end_) hnc)
    have hm2 := second_moment_pos v start end_ h1 h2 hnc
    rw [← hlen] at hm2
    have hle := skew_value_sq_le (slice v start end_) (gf_array_dmean_range v start end_)
      (H.sqrt (((slice v start end_).map (fun x => (x - gf_array_dmean_range v start end_) *
        (x - gf_array_dmean_range v start end_))).sum / ((slice v start end_).length : ℚ)))
      (by omega) hpos (hsqrt _ hm2) (hacc _ hm2)
    rw [skew_sums_eq, ← hlen] at hval
    rw [← hlen] at hbig
    simp only [] at hval
    rw [hval] at hle
    linarith
  · intro hc
    simp only [hiff.mpr hc, if_true]

/-! ## Binary64 arithmetic -/

/-- With no rounding, the rounded sum is `gf_array_dsum_range`. -/
theorem dsum_fl_exact (v : List ℚ) (start end_ : ℕ) :
    gf_array_dsum_range_fl (fun x => x) v start end_ = gf_array_dsum_range v start end_ := rfl

/-- With no rounding, the rounded Poisson standard error is
`gf_array_dsepois_range`. -/
theorem dsepois_fl_exact (H : Host) (v : List ℚ) (start end_ : ℕ) :
    gf_array_dsepois_range_fl (fun x => x) H v start end_ =
      gf_array_dsepois_range H v start end_ := rfl

/-- With no rounding, the rounded position is `quantile_position`. -/
theorem quantile_position_fl_exact (N : ℕ) (q : ℚ) :
    quantile_position_fl (fun x => x) N q = quantile_position N q := by
  unfold quantile_position_fl quantile_position position_general position_round
    qdbl_general_fl qdbl_round_fl
  rfl

theorem c_floor_intCast_sub_one (z : ℤ) : c_floor ((z : ℚ) - 1) = z - 1 := by
  unfold c_floor
  have h : (z : ℚ) - 1 = ((z - 1 : ℤ) : ℚ) := by push_cast; ring
  rw [h, Int.floor_intCast]

/-- With no rounding, the rounded resolution is `quantile_resolve`. -/
theorem quantile_resolve_fl_exact (v : List ℚ) (start end_ : ℕ) (pos : ℤ × ℤ × Bool) :
    quantile_resolve_fl (fun x => x) v start end_ pos = quantile_resolve v start end_ pos := by
  unfold quantile_resolve_fl quantile_resolve
  simp only [c_floor_intCast_sub_one]

/-- With no rounding, the rounded quantile is `gf_array_dquantile_range`. -/
theorem dquantile_fl_exact (v : List ℚ) (start end_ : ℕ) (q : ℚ) :
    gf_array_dquantile_range_fl (fun x => x) v start end_ q =
      gf_array_dquantile_range v start end_ q := by
  by_cases h1 : end_ - start = 1
  · simp only [gf_array_dquantile_range_fl, gf_array_dquantile_range, h1, if_true]
  · by_cases h2 : end_ - start = 2
    · have h21 : ¬ ((2 : ℕ) = 1) := by decide
      simp only [gf_array_dquantile_range_fl, gf_array_dquantile_range, h2, h21, if_true,
        if_false]
    · rw [quantile_eq_resolve v start end_ q h1 h2]
      simp only [gf_array_dquantile_range_fl, h1, h2, if_false, quantile_position_fl_exact,
        quantile_resolve_fl_exact]

/-- With no rounding, the rounded ranks are `selection_ranks`. -/
theorem selection_ranks_fl_exact (N : ℕ) (q : ℚ) :
    selection_ranks_fl (fun x => x) N q = selection_ranks N q := by
  unfold selection_ranks_fl selection_ranks
  simp only [quantile_position_fl_exact, c_floor_intCast_sub_one]

/-- C1 (failing input): on the three-entry range `[1, 2, 3]` the median
function `gf_array_dmedian_range` returns 3, the maximum, and leaves the array
as it was, while the standard median of the range, its middle order statistic,
is 2. -/
theorem median_of_three_returns_max :
    gf_array_dmedian_range [1, 2, 3] 0 3 = some (3, [1, 2, 3]) ∧
      standard_median (sorted [1, 2, 3] 0 3) = 2 := by
  decide!

/-- C2 (failing input): on the three-entry range `[1, 2, 3]` the quantile at
100 calls the selection with rank 3, outside the selection contract
`0 ≤ k < 3`, so its result is undefined, while the maximum of the range is 3. -/
theorem quantile_100_selects_out_of_range :
    gf_array_dquantile_range [1, 2, 3] 0 3 100 = none ∧
      gf_qselect_range [1, 2, 3] 0 3 3 = none ∧
      gf_array_dmax_range [1, 2, 3] 0 3 = 3 := by
  decide!

/-- C3: for a non-empty range `[left, right)` of the array and a rank
`k < right - left`, `gf_qselect_range` returns a value `x` and a reordered
array `w` that has the length of `v`, the entries of `v` outside the range, a
permutation of the range inside it, `x` at position `left + k`, no entry
larger than `x` in `[left, left + k)`, no entry smaller than `x` in
`[left + k, right)`; and `x` is the order statistic of rank `k` (0-indexed) of
the original range, its `(k + 1)`-th smallest entry. -/
theorem gf_qselect_range_contract (v : List ℚ) (left right k : ℕ) (h1 : left < right)
    (h2 : right ≤ v.length) (hk : k < right - left) :
    ∃ x w, gf_qselect_range v left right k = some (x, w) ∧
      w.length = v.length ∧
      (∀ i, i < left ∨ right ≤ i → rd w i = rd v i) ∧
      (slice w left right).Perm (slice v left right) ∧
      rd w (left + k) = x ∧
      (∀ i, left ≤ i → i < left + k → rd w i ≤ x) ∧
      (∀ i, left + k ≤ i → i < right → x ≤ rd w i) ∧
      x = (sorted v left right).getD k 0 := by
  obtain ⟨w, hw, hlen, hperm, hout, hpart⟩ := qselect_range_eval v left right k h1 h2 hk
  obtain ⟨-, hk0, hlo, hhi⟩ := partAt_getD _ _ _ hpart
  have hsl : (slice w left right).length = right - left :=
    slice_length w left right (by omega)
  refine ⟨_, w, hw, hlen, hout, hperm, ?_, ?_, ?_, rfl⟩
  · rw [← slice_getD w left right k (by omega)]
    exact hk0
  · intro i hi1 hi2
    have h3 := hlo (i - left) (by omega)
    rw [slice_getD w left right (i - left) (by omega)] at h3
    have h4 : left + (i - left) = i := by omega
    rw [h4] at h3
    exact h3
  · intro i hi1 hi2
    have h3 := hhi (i - left) (by omega) (by omega)
    rw [slice_getD w left right (i - left) (by omega)] at h3
    have h4 : left + (i - left) = i := by omega
    rw [h4] at h3
    exact h3

/-- C3, at the range `[1, 4)` of `[3, 7, 1, 9, 2]` and rank 1. -/
theorem gf_qselect_range_contract_witness :
    (1 < 4 ∧ 4 ≤ ([3, 7, 1, 9, 2] : List ℚ).length ∧ 1 < 4 - 1) ∧
      ∃ x w, gf_qselect_range [3, 7, 1, 9, 2] 1 4 1 = some (x, w) ∧
        w.length = ([3, 7, 1, 9, 2] : List ℚ).length ∧
        (∀ i, i < 1 ∨ 4 ≤ i → rd w i = rd [3, 7, 1, 9, 2] i) ∧
        (slice w 1 4).Perm (slice [3, 7, 1, 9, 2] 1 4) ∧
        rd w (1 + 1) = x ∧
        (∀ i, 1 ≤ i → i < 1 + 1 → rd w i ≤ x) ∧
        (∀ i, 1 + 1 ≤ i → i < 4 → x ≤ rd w i) ∧
        x = (sorted [3, 7, 1, 9, 2] 1 4).getD 1 0 :=
  ⟨by decide, gf_qselect_range_contract [3, 7, 1, 9, 2] 1 4 1 (by decide) (by decide)
    (by decide)⟩

/-- C4: for a range of size `N ≥ 3` inside the array and a percentile
`0 < q < 100`, `gf_array_dquantile_range` returns the quantile by position of
the sorted range (`quantile_by_position`: the minimum when `p < 1`, the average
of `s[p - 1]` and `s[p]` when `p` is an integer, the maximum when `p` is not an
integer and `floor p = N - 1` or `round p = N - 1`, else `s[floor p]`, with
`p = q * N / 100`), leaving a permutation of the range; the ends `s[0]` and
`s[N - 1]` of the sorted range are the minimum and the maximum that
`gf_array_dmin_range` and `gf_array_dmax_range` compute. -/
theorem gf_array_dquantile_range_by_position (v : List ℚ) (start end_ : ℕ) (q : ℚ)
    (hN : 3 ≤ end_ - start) (h2 : end_ ≤ v.length) (hq0 : 0 < q) (hq1 : q < 100) :
    (∃ w, gf_array_dquantile_range v start end_ q =
        some (quantile_by_position (sorted v start end_) (end_ - start) q, w) ∧
      (slice w start end_).Perm (slice v start end_) ∧ w.length = v.length) ∧
    (sorted v start end_).getD 0 0 = gf_array_dmin_range v start end_ ∧
    (sorted v start end_).getD (end_ - start - 1) 0 = gf_array_dmax_range v start end_ :=
  ⟨quantile_eval v start end_ q hN h2 hq0 hq1,
    (dmin_eq_sorted v start end_ (by omega) h2).symm,
    (dmax_eq_sorted v start end_ (by omega) h2).symm⟩

/-- C4, at the full range of `[3, 7, 1, 9, 2]` and the percentile 40, where
`p = 2` is an integer. -/
theorem gf_array_dquantile_range_by_position_witness :
    (3 ≤ 5 - 0 ∧ 5 ≤ ([3, 7, 1, 9, 2] : List ℚ).length ∧ (0 : ℚ) < 40 ∧ (40 : ℚ) < 100) ∧
      ((∃ w, gf_array_dquantile_range [3, 7, 1, 9, 2] 0 5 40 =
          some (quantile_by_position (sorted [3, 7, 1, 9, 2] 0 5) (5 - 0) 40, w) ∧
        (slice w 0 5).Perm (slice [3, 7, 1, 9, 2] 0 5) ∧
        w.length = ([3, 7, 1, 9, 2] : List ℚ).length) ∧
      (sorted [3, 7, 1, 9, 2] 0 5).getD 0 0 = gf_array_dmin_range [3, 7, 1, 9, 2] 0 5 ∧
      (sorted [3, 7, 1, 9, 2] 0 5).getD (5 - 0 - 1) 0 =
        gf_array_dmax_range [3, 7, 1, 9, 2] 0 5) :=
  ⟨⟨by decide, by decide, by norm_num, by norm_num⟩,
    gf_array_dquantile_range_by_position [3, 7, 1, 9, 2] 0 5 40 (by decide) (by decide)
      (by norm_num) (by norm_num)⟩

/-- C7: on a range of one entry `gf_array_dquantile_range` returns that entry
for every `q`; on a range of two entries it returns the larger one when
`q > 50`, the smaller one when `q < 50` and their average when `q = 50`; in
both cases the array is returned as it was, whatever the array holds outside
the range (no selection takes place). -/
theorem gf_array_dquantile_range_degenerate (v : List ℚ) (start : ℕ) (q : ℚ) :
    gf_array_dquantile_range v start (start + 1) q = some (rd v start, v) ∧
      gf_array_dquantile_range v start (start + 2) q =
        some (if q > 50 then max (rd v start) (rd v (start + 2 - 1))
          else if q < 50 then min (rd v start) (rd v (start + 2 - 1))
          else (rd v start + rd v (start + 2 - 1)) / 2, v) := by
  have hmax : ∀ a b : ℚ, MAX a b = max a b := by
    intro a b
    unfold MAX
    split_ifs with h
    · exact (max_eq_left (le_of_lt h)).symm
    · exact (max_eq_right (not_lt.mp h)).symm
  have hmin : ∀ a b : ℚ, MIN a b = min a b := by
    intro a b
    unfold MIN
    split_ifs with h
    · exact (min_eq_right (le_of_lt h)).symm
    · exact (min_eq_left (not_lt.mp h)).symm
  constructor
  · simp [gf_array_dquantile_range]
  · have h1 : start + 2 - start = 2 := by omega
    simp only [gf_array_dquantile_range, h1, hmax, hmin]
    split_ifs <;> simp_all

/-- C5: for a range of size `N ≥ 2` inside the array, `gf_array_diqr_range`
returns a value, the quantile at 75 minus the quantile at 25, and it is not
negative. -/
theorem gf_array_diqr_range_nonneg (v : List ℚ) (start end_ : ℕ) (hN : 2 ≤ end_ - start)
    (h2 : end_ ≤ v.length) :
    ∃ x w, gf_array_diqr_range v start end_ = some (x, w) ∧ 0 ≤ x := by
  rcases Nat.eq_or_lt_of_le hN with h | h
  · have h75 : (75 : ℚ) > 50 := by norm_num
    have h25a : ¬ ((25 : ℚ) > 50) := by norm_num
    have h25b : (25 : ℚ) < 50 := by norm_num
    refine ⟨MAX (rd v start) (rd v (end_ - 1)) - MIN (rd v start) (rd v (end_ - 1)), v, ?_, ?_⟩
    · have h21 : ¬ ((2 : ℕ) = 1) := by decide
      simp only [gf_array_diqr_range, gf_array_dquantile_range, ← h, h21, if_false, if_true,
        h75, h25a, h25b, Option.some_bind]
    · unfold MAX MIN
      split_ifs with h3
      · linarith
      · linarith
  · have h3 : 3 ≤ end_ - start := h
    obtain ⟨w1, hw1, hperm1, hlen1⟩ :=
      quantile_eval v start end_ 75 h3 h2 (by norm_num) (by norm_num)
    obtain ⟨w2, hw2, -, -⟩ :=
      quantile_eval w1 start end_ 25 h3 (by omega) (by norm_num) (by norm_num)
    rw [sorted_of_perm v w1 start end_ hperm1] at hw2
    refine ⟨_, w2, ?_, sub_nonneg.mpr (quantile_by_position_25_le_75 v start end_ h3 h2)⟩
    simp only [gf_array_diqr_range, hw1, Option.some_bind, hw2]

/-- C5, at the full range of `[3, 7, 1, 9, 2]`. -/
theorem gf_array_diqr_range_nonneg_witness :
    (2 ≤ 5 - 0 ∧ 5 ≤ ([3, 7, 1, 9, 2] : List ℚ).length) ∧
      ∃ x w, gf_array_diqr_range [3, 7, 1, 9, 2] 0 5 = some (x, w) ∧ 0 ≤ x :=
  ⟨by decide, gf_array_diqr_range_nonneg [3, 7, 1, 9, 2] 0 5 (by decide) (by decide)⟩

/-- C6 (failing input): for the name `sepoisson` of the vocabulary, which the
source compares with the string `"sepoisson "` (a trailing blank), on the
one-entry range `[4]` and a host whose `atof` finds no number in the name,
`gf_switch_fun` returns 0 while `gf_switch_fun_code` on the code
`gf_code_fun` gives (0, the quantile at 0) returns the entry 4. -/
theorem switch_name_code_differ_on_sepoisson (H : Host) (h : H.atof "sepoisson" = 0) :
    gf_switch_fun H "sepoisson" [4] 0 1 = some (0, [4]) ∧
      gf_code_fun H "sepoisson" = 0 ∧
      gf_switch_fun_code H (gf_code_fun H "sepoisson") [4] 0 1 = some (4, [4]) := by
  have hc : gf_code_fun H "sepoisson" = 0 := by
    simp [gf_code_fun, h]
  refine ⟨?_, hc, ?_⟩
  · simp [gf_switch_fun, h]
  · rw [hc]
    norm_num [gf_switch_fun_code, gf_array_dquantile_range, rd]

/-- C6, with the host of the examples. -/
theorem switch_name_code_differ_on_sepoisson_witness :
    exampleHost.atof "sepoisson" = 0 ∧
      gf_switch_fun exampleHost "sepoisson" [4] 0 1 = some (0, [4]) ∧
      gf_code_fun exampleHost "sepoisson" = 0 ∧
      gf_switch_fun_code exampleHost (gf_code_fun exampleHost "sepoisson") [4] 0 1 =
        some (4, [4]) :=
  ⟨by decide!, switch_name_code_differ_on_sepoisson exampleHost (by decide!)⟩

/-- C8: on a non-empty range of the array, for a host whose missing value is
not the square root of a number between 0 and 1, `gf_array_dsebinom_range`
returns the missing value if and only if some entry of the range is neither 0
nor 1; and when every entry is 0 or 1 it returns
`sqrt (p * (1 - p) / N)` with `p` the mean of the range. -/
theorem gf_array_dsebinom_range_spec (H : Host) (v : List ℚ) (start end_ : ℕ)
    (h1 : start < end_) (h2 : end_ ≤ v.length)
    (hsqrt : ∀ x : ℚ, 0 ≤ x → x ≤ 1 → H.sqrt x ≠ H.SV_missval) :
    (gf_array_dsebinom_range H v start end_ = H.SV_missval ↔
        ∃ i, start ≤ i ∧ i < end_ ∧ rd v i ≠ 0 ∧ rd v i ≠ 1) ∧
      ((∀ i, start ≤ i → i < end_ → rd v i = 0 ∨ rd v i = 1) →
        gf_array_dsebinom_range H v start end_ =
          H.sqrt ((slice v start end_).sum / ((end_ - start : ℕ) : ℚ) *
            (1 - (slice v start end_).sum / ((end_ - start : ℕ) : ℚ)) /
            ((end_ - start : ℕ) : ℚ))) := by
  have hany : (slice v start end_).any (fun x => decide (x ≠ 0) && decide (x ≠ 1)) = true ↔
      ∃ i, start ≤ i ∧ i < end_ ∧ rd v i ≠ 0 ∧ rd v i ≠ 1 := by
    rw [List.any_eq_true]
    constructor
    · rintro ⟨x, hx, hp⟩
      obtain ⟨i, hi1, hi2, hix⟩ := (mem_slice_iff v start end_ h2 x).mp hx
      simp only [Bool.and_eq_true, decide_eq_true_eq] at hp
      exact ⟨i, hi1, hi2, by rw [hix]; exact hp.1, by rw [hix]; exact hp.2⟩
    · rintro ⟨i, hi1, hi2, h3, h4⟩
      refine ⟨rd v i, (mem_slice_iff v start end_ h2 _).mpr ⟨i, hi1, hi2, rfl⟩, ?_⟩
      simp only [Bool.and_eq_true, decide_eq_true_eq]
      exact ⟨h3, h4⟩
  have hval : (∀ i, start ≤ i → i < end_ → rd v i = 0 ∨ rd v i = 1) →
      gf_array_dsebinom_range H v start end_ =
          H.sqrt ((slice v start end_).sum / ((end_ - start : ℕ) : ℚ) *
            (1 - (slice v start end_).sum / ((end_ - start : ℕ) : ℚ)) /
            ((end_ - start : ℕ) : ℚ)) ∧
        0 ≤ (slice v start end_).sum / ((end_ - start : ℕ) : ℚ) *
            (1 - (slice v start end_).sum / ((end_ - start : ℕ) : ℚ)) /
            ((end_ - start : ℕ) : ℚ) ∧
        (slice v start end_).sum / ((end_ - start : ℕ) : ℚ) *
            (1 - (slice v start end_).sum / ((end_ - start : ℕ) : ℚ)) /
            ((end_ - start : ℕ) : ℚ) ≤ 1 := by
    intro hall
    have hno : ¬ ((slice v start end_).any (fun x => decide (x ≠ 0) && decide (x ≠ 1)) = true) := by
      rw [hany]
      rintro ⟨i, hi1, hi2, h3, h4⟩
      rcases hall i hi1 hi2 with h | h
      · exact h3 h
      · exact h4 h
    have hbin : ∀ x ∈ slice v start end_, x = 0 ∨ x = 1 := by
      intro x hx
      obtain ⟨i, hi1, hi2, hix⟩ := (mem_slice_iff v start end_ h2 x).mp hx
      rw [← hix]
      exact hall i hi1 hi2
    obtain ⟨hs0, hs1⟩ := sum_bounds_of_binary _ hbin
    rw [slice_length v start end_ h2] at hs1
    have hNpos : (0 : ℚ) < ((end_ - start : ℕ) : ℚ) := by
      have : 0 < end_ - start := by omega
      exact_mod_cast this
    have hN1 : (1 : ℚ) ≤ ((end_ - start : ℕ) : ℚ) := by
      have : 1 ≤ end_ - start := by omega
      exact_mod_cast this
    have hp0 : 0 ≤ (slice v start end_).sum / ((end_ - start : ℕ) : ℚ) := by positivity
    have hp1 : (slice v start end_).sum / ((end_ - start : ℕ) : ℚ) ≤ 1 := by
      rw [div_le_one hNpos]
      exact hs1
    refine ⟨?_, ?_, ?_⟩
    · simp only [gf_array_dsebinom_range, hno, if_false, gf_array_dmean_range, dsum_eq_sum,
        Bool.false_eq_true]
    · apply div_nonneg _ (le_of_lt hNpos)
      exact mul_nonneg hp0 (by linarith)
    · rw [div_le_one hNpos]
      nlinarith
  refine ⟨?_, fun hall => (hval hall).1⟩
  constructor
  · intro heq
    by_contra hne
    have hall : ∀ i, start ≤ i → i < end_ → rd v i = 0 ∨ rd v i = 1 := by
      intro i hi1 hi2
      by_contra h3
      push_neg at h3
      exact hne ⟨i, hi1, hi2, h3.1, h3.2⟩
    obtain ⟨h4, h5, h6⟩ := hval hall
    rw [h4] at heq
    exact hsqrt _ h5 h6 heq
  · intro hex
    simp only [gf_array_dsebinom_range, hany.mpr hex, if_true]

/-- C8, at the full range of `[0, 1, 1, 0, 1]` with the host of the examples. -/
theorem gf_array_dsebinom_range_spec_witness :
    (0 < 5 ∧ 5 ≤ ([0, 1, 1, 0, 1] : List ℚ).length ∧
      ∀ x : ℚ, 0 ≤ x → x ≤ 1 → exampleHost.sqrt x ≠ exampleHost.SV_missval) ∧
      (gf_array_dsebinom_range exampleHost [0, 1, 1, 0, 1] 0 5 = exampleHost.SV_missval ↔
        ∃ i, 0 ≤ i ∧ i < 5 ∧ rd [0, 1, 1, 0, 1] i ≠ 0 ∧ rd [0, 1, 1, 0, 1] i ≠ 1) ∧
      ((∀ i, 0 ≤ i → i < 5 → rd [0, 1, 1, 0, 1] i = 0 ∨ rd [0, 1, 1, 0, 1] i = 1) →
        gf_array_dsebinom_range exampleHost [0, 1, 1, 0, 1] 0 5 =
          exampleHost.sqrt ((slice [0, 1, 1, 0, 1] 0 5).sum / ((5 - 0 : ℕ) : ℚ) *
            (1 - (slice [0, 1, 1, 0, 1] 0 5).sum / ((5 - 0 : ℕ) : ℚ)) /
            ((5 - 0 : ℕ) : ℚ))) :=
  have hs : ∀ x : ℚ, 0 ≤ x → x ≤ 1 → exampleHost.sqrt x ≠ exampleHost.SV_missval :=
    fun x h0 h1 => ne_of_lt (lt_of_le_of_lt (exampleHost_sqrt_le_one x h0 h1)
      (by norm_num [exampleHost]))
  ⟨⟨by decide, by decide, hs⟩,
    gf_array_dsebinom_range_spec exampleHost [0, 1, 1, 0, 1] 0 5 (by decide) (by decide) hs⟩

/-- C10: on a non-empty range of the array whose entries are all equal,
`gf_array_dskew_range` and `gf_array_dkurt_range` both return the missing
value: the sameness test succeeds and no division takes place. -/
theorem skew_kurt_of_constant_range (H : Host) (v : List ℚ) (start end_ : ℕ) (c : ℚ)
    (h1 : start < end_) (h2 : end_ ≤ v.length)
    (hc : ∀ i, start ≤ i → i < end_ → rd v i = c) :
    gf_array_dsame (v.drop start) (end_ - start) = true ∧
      gf_array_dskew_range H v start end_ = H.SV_missval ∧
      gf_array_dkurt_range H v start end_ = H.SV_missval := by
  have hs := dsame_of_constant v start end_ c h1 h2 hc
  refine ⟨hs, ?_, ?_⟩
  · simp only [gf_array_dskew_range, hs, if_true]
  · simp only [gf_array_dkurt_range, hs, if_true]

/-- C10, at the range `[1, 4)` of `[3, 7, 7, 7, 2]` with the host of the
examples. -/
theorem skew_kurt_of_constant_range_witness :
    (1 < 4 ∧ 4 ≤ ([3, 7, 7, 7, 2] : List ℚ).length ∧
      ∀ i, 1 ≤ i → i < 4 → rd [3, 7, 7, 7, 2] i = 7) ∧
      gf_array_dsame (([3, 7, 7, 7, 2] : List ℚ).drop 1) (4 - 1) = true ∧
      gf_array_dskew_range exampleHost [3, 7, 7, 7, 2] 1 4 = exampleHost.SV_missval ∧
      gf_array_dkurt_range exampleHost [3, 7, 7, 7, 2] 1 4 = exampleHost.SV_missval :=
  have hc : ∀ i, 1 ≤ i → i < 4 → rd [3, 7, 7, 7, 2] i = 7 := by
    intro i hi1 hi2
    have h : i = 1 ∨ i = 2 ∨ i = 3 := by omega
    rcases h with h | h | h <;> subst h <;> rfl
  ⟨⟨by decide, by decide, hc⟩,
    skew_kurt_of_constant_range exampleHost [3, 7, 7, 7, 2] 1 4 7 (by decide) (by decide) hc⟩

/-- C11: on a non-empty range of the array whose entries are all equal, a
range of one entry included, `gf_array_dsd_range` returns 0: the sameness test
succeeds and the function returns before any division. -/
theorem gf_array_dsd_range_of_constant (H : Host) (v : List ℚ) (start end_ : ℕ) (c : ℚ)
    (h1 : start < end_) (h2 : end_ ≤ v.length)
    (hc : ∀ i, start ≤ i → i < end_ → rd v i = c) :
    gf_array_dsd_range H v start end_ = 0 := by
  simp only [gf_array_dsd_range, dsame_of_constant v start end_ c h1 h2 hc, if_true]

/-- C11, at the one-entry range `[2, 3)` of `[3, 7, 5]` with the host of the
examples. -/
theorem gf_array_dsd_range_of_constant_witness :
    (2 < 3 ∧ 3 ≤ ([3, 7, 5] : List ℚ).length ∧ ∀ i, 2 ≤ i → i < 3 → rd [3, 7, 5] i = 5) ∧
      gf_array_dsd_range exampleHost [3, 7, 5] 2 3 = 0 :=
  have hc : ∀ i, 2 ≤ i → i < 3 → rd [3, 7, 5] i = 5 := by
    intro i hi1 hi2
    have h : i = 2 := by omega
    subst h
    rfl
  ⟨⟨by decide, by decide, hc⟩,
    gf_array_dsd_range_of_constant exampleHost [3, 7, 5] 2 3 5 (by decide) (by decide) hc⟩

/-- C12: for a name that is none of the twelve strings `gf_switch_fun`
compares with (the last but two being `"sepoisson "`, with its blank), and `x`
the value `atof` gives for the name: when `x > 0`, `gf_switch_fun` is
`gf_array_dquantile_range` at `x`; when `x ≤ 0`, it returns 0 and the array as
it was. -/
theorem gf_switch_fun_unmatched (H : Host) (fname : String) (v : List ℚ) (start end_ : ℕ)
    (h : fname ∉ ["sum", "mean", "sd", "max", "min", "median", "iqr", "semean", "sebinomial",
      "sepoisson ", "skewness", "kurtosis"]) :
    (0 < H.atof fname →
        gf_switch_fun H fname v start end_ =
          gf_array_dquantile_range v start end_ (H.atof fname)) ∧
      (H.atof fname ≤ 0 → gf_switch_fun H fname v start end_ = some (0, v)) := by
  simp only [List.mem_cons, List.mem_singleton, List.not_mem_nil, or_false, not_or] at h
  obtain ⟨h1, h2, h3, h4, h5, h6, h7, h8, h9, h10, h11, h12⟩ := h
  constructor
  · intro hx
    simp only [gf_switch_fun, h1, h2, h3, h4, h5, h6, h7, h8, h9, h10, h11, h12, if_false,
      gt_iff_lt, hx, if_true]
  · intro hx
    simp only [gf_switch_fun, h1, h2, h3, h4, h5, h6, h7, h8, h9, h10, h11, h12, if_false,
      gt_iff_lt, not_lt.mpr hx]

/-- C12, at the names `"25"` (parsed as 25) and `"sepoisson"` (parsed as 0)
with the host of the examples. -/
theorem gf_switch_fun_unmatched_witness :
    ("25" ∉ ["sum", "mean", "sd", "max", "min", "median", "iqr", "semean", "sebinomial",
        "sepoisson ", "skewness", "kurtosis"] ∧ 0 < exampleHost.atof "25" ∧
      "sepoisson" ∉ ["sum", "mean", "sd", "max", "min", "median", "iqr", "semean",
        "sebinomial", "sepoisson ", "skewness", "kurtosis"] ∧
      exampleHost.atof "sepoisson" ≤ 0) ∧
      gf_switch_fun exampleHost "25" [3, 7, 1, 9, 2] 0 5 =
        gf_array_dquantile_range [3, 7, 1, 9, 2] 0 5 (exampleHost.atof "25") ∧
      gf_switch_fun exampleHost "sepoisson" [3, 7, 1, 9, 2] 0 5 = some (0, [3, 7, 1, 9, 2]) :=
  ⟨⟨by decide, by decide!, by decide, by decide!⟩,
    (gf_switch_fun_unmatched exampleHost "25" [3, 7, 1, 9, 2] 0 5 (by decide)).1 (by decide!),
    (gf_switch_fun_unmatched exampleHost "sepoisson" [3, 7, 1, 9, 2] 0 5 (by decide)).2
      (by decide!)⟩

/-- C13: `gf_switch_fun_code` sends the codes -1, -2, -3, -4, -5, -9, -15,
-16, -17, -19, -20 and -21 to the sum, the mean, the standard deviation, the
maximum, the minimum, the inter-quartile range, the standard error of the
mean, the binomial and the Poisson standard errors, the skewness, the kurtosis
and the sum again; the code 50 to `gf_array_dmedian_range`; and every positive
code `c` to `gf_array_dquantile_range` at `c`. -/
theorem gf_switch_fun_code_table (H : Host) (v : List ℚ) (start end_ : ℕ) (c : ℚ)
    (hc : 0 < c) :
    gf_switch_fun_code H (-1) v start end_ = some (gf_array_dsum_range v start end_, v) ∧
      gf_switch_fun_code H (-2) v start end_ = some (gf_array_dmean_range v start end_, v) ∧
      gf_switch_fun_code H (-3) v start end_ = some (gf_array_dsd_range H v start end_, v) ∧
      gf_switch_fun_code H (-4) v start end_ = some (gf_array_dmax_range v start end_, v) ∧
      gf_switch_fun_code H (-5) v start end_ = some (gf_array_dmin_range v start end_, v) ∧
      gf_switch_fun_code H (-9) v start end_ = gf_array_diqr_range v start end_ ∧
      gf_switch_fun_code H (-15) v start end_ =
        some (gf_array_dsemean_range H v start end_, v) ∧
      gf_switch_fun_code H (-16) v start end_ =
        some (gf_array_dsebinom_range H v start end_, v) ∧
      gf_switch_fun_code H (-17) v start end_ =
        (gf_array_dsepois_range H v start end_).map (fun x => (x, v)) ∧
      gf_switch_fun_code H (-19) v start end_ = some (gf_array_dskew_range H v start end_, v) ∧
      gf_switch_fun_code H (-20) v start end_ = some (gf_array_dkurt_range H v start end_, v) ∧
      gf_switch_fun_code H (-21) v start end_ = some (gf_array_dsum_range v start end_, v) ∧
      gf_switch_fun_code H 50 v start end_ = gf_array_dmedian_range v start end_ ∧
      gf_switch_fun_code H c v start end_ = gf_array_dquantile_range v start end_ c := by
  have hne : ∀ z : ℚ, z < 0 → ¬ (c = z) := by
    intro z hz h
    rw [h] at hc
    exact absurd hc (not_lt.mpr (le_of_lt hz))
  refine ⟨?_, ?_, ?_, ?_, ?_, ?_, ?_, ?_, ?_, ?_, ?_, ?_, ?_, ?_⟩
  any_goals (norm_num [gf_switch_fun_code, gf_array_dmedian_range]; done)
  simp only [gf_switch_fun_code, hne (-1) (by norm_num), hne (-2) (by norm_num),
    hne (-3) (by norm_num), hne (-4) (by norm_num), hne (-5) (by norm_num),
    hne (-9) (by norm_num), hne (-15) (by norm_num), hne (-16) (by norm_num),
    hne (-17) (by norm_num), hne (-19) (by norm_num), hne (-20) (by norm_num),
    hne (-21) (by norm_num), if_false]

/-- C13, at the full range of `[3, 7, 1, 9, 2]` and the code 30 with the host
of the examples. -/
theorem gf_switch_fun_code_table_witness :
    (0 : ℚ) < 30 ∧
      gf_switch_fun_code exampleHost (-4) [3, 7, 1, 9, 2] 0 5 =
        some (gf_array_dmax_range [3, 7, 1, 9, 2] 0 5, [3, 7, 1, 9, 2]) ∧
      gf_switch_fun_code exampleHost 50 [3, 7, 1, 9, 2] 0 5 =
        gf_array_dmedian_range [3, 7, 1, 9, 2] 0 5 ∧
      gf_switch_fun_code exampleHost 30 [3, 7, 1, 9, 2] 0 5 =
        gf_array_dquantile_range [3, 7, 1, 9, 2] 0 5 30 :=
  have h := gf_switch_fun_code_table exampleHost [3, 7, 1, 9, 2] 0 5 30 (by norm_num)
  ⟨by norm_num, h.2.2.2.1, h.2.2.2.2.2.2.2.2.2.2.2.2.1, h.2.2.2.2.2.2.2.2.2.2.2.2.2⟩

/-- C14 (failing input): for the name `sepoisson` of the fixed statistics,
which the source compares with the string `"sepoisson "` (a trailing blank),
`gf_code_fun` returns what the `atof` branch returns, a code that is not
negative and so is not the documented -17. -/
theorem gf_code_fun_sepoisson (H : Host) :
    0 ≤ gf_code_fun H "sepoisson" ∧ gf_code_fun H "sepoisson" ≠ -17 ∧
      gf_code_fun H "sepoisson" = (if H.atof "sepoisson" > 0 then H.atof "sepoisson" else 0) := by
  have h : gf_code_fun H "sepoisson" =
      (if H.atof "sepoisson" > 0 then H.atof "sepoisson" else 0) := by
    simp only [gf_code_fun, String.reduceEq, if_false]
  have h0 : 0 ≤ gf_code_fun H "sepoisson" := by
    rw [h]
    split_ifs with h1
    · exact le_of_lt h1
    · exact le_refl _
  refine ⟨h0, ?_, h⟩
  intro h2
  rw [h2] at h0
  norm_num at h0

/-- C15: on a non-empty range of the array, `gf_array_dmin_range` returns an
entry of the range that no entry of the range is below, `gf_array_dmax_range`
returns an entry of the range that no entry of the range is above, and both
give the same results on every array that has the same entries in the range:
they read nothing outside it. -/
theorem gf_array_dmin_dmax_range_spec (v : List ℚ) (start end_ : ℕ) (h1 : start < end_)
    (h2 : end_ ≤ v.length) :
    (∃ i, start ≤ i ∧ i < end_ ∧ rd v i = gf_array_dmin_range v start end_) ∧
      (∀ i, start ≤ i → i < end_ → gf_array_dmin_range v start end_ ≤ rd v i) ∧
      (∃ i, start ≤ i ∧ i < end_ ∧ rd v i = gf_array_dmax_range v start end_) ∧
      (∀ i, start ≤ i → i < end_ → rd v i ≤ gf_array_dmax_range v start end_) ∧
      (∀ w : List ℚ, end_ ≤ w.length → (∀ i, start ≤ i → i < end_ → rd w i = rd v i) →
        gf_array_dmin_range w start end_ = gf_array_dmin_range v start end_ ∧
          gf_array_dmax_range w start end_ = gf_array_dmax_range v start end_) := by
  obtain ⟨hmin1, hmin2⟩ := dmin_range_spec v start end_ h1 h2
  obtain ⟨hmax1, hmax2⟩ := dmax_range_spec v start end_ h1 h2
  refine ⟨(mem_slice_iff v start end_ h2 _).mp hmin1, ?_,
    (mem_slice_iff v start end_ h2 _).mp hmax1, ?_, ?_⟩
  · intro i hi1 hi2
    exact hmin2 _ ((mem_slice_iff v start end_ h2 _).mpr ⟨i, hi1, hi2, rfl⟩)
  · intro i hi1 hi2
    exact hmax2 _ ((mem_slice_iff v start end_ h2 _).mpr ⟨i, hi1, hi2, rfl⟩)
  · intro w hw hsame
    have hs := slice_congr v w (start + 1) end_ h2 hw
      (fun i hi1 hi2 => hsame i (by omega) hi2)
    have h0 := hsame start (le_refl _) h1
    simp only [gf_array_dmin_range, gf_array_dmax_range, hs, h0, and_self]

/-- C15, at the range `[1, 4)` of `[3, 7, 1, 9, 2]`. -/
theorem gf_array_dmin_dmax_range_spec_witness :
    (1 < 4 ∧ 4 ≤ ([3, 7, 1, 9, 2] : List ℚ).length) ∧
      (∃ i, 1 ≤ i ∧ i < 4 ∧ rd [3, 7, 1, 9, 2] i = gf_array_dmin_range [3, 7, 1, 9, 2] 1 4) ∧
      (∀ i, 1 ≤ i → i < 4 → gf_array_dmin_range [3, 7, 1, 9, 2] 1 4 ≤ rd [3, 7, 1, 9, 2] i) ∧
      (∃ i, 1 ≤ i ∧ i < 4 ∧ rd [3, 7, 1, 9, 2] i = gf_array_dmax_range [3, 7, 1, 9, 2] 1 4) ∧
      (∀ i, 1 ≤ i → i < 4 → rd [3, 7, 1, 9, 2] i ≤ gf_array_dmax_range [3, 7, 1, 9, 2] 1 4) ∧
      (∀ w : List ℚ, 4 ≤ w.length → (∀ i, 1 ≤ i → i < 4 → rd w i = rd [3, 7, 1, 9, 2] i) →
        gf_array_dmin_range w 1 4 = gf_array_dmin_range [3, 7, 1, 9, 2] 1 4 ∧
          gf_array_dmax_range w 1 4 = gf_array_dmax_range [3, 7, 1, 9, 2] 1 4) :=
  ⟨by decide, gf_array_dmin_dmax_range_spec [3, 7, 1, 9, 2] 1 4 (by decide) (by decide)⟩

/-- C17: for a range whose size `N ≥ 3` is a multiple of 100 and every `q`,
the formulation of the position that `gf_array_dquantile_range` uses
(`position_round`: `qdbl = q * (N / 100)`, `rfoo = (qfoo / (N / 100) == q)`)
gives the same `floor (qdbl)`, hence `qth`, the same `qfoo` and the same `rfoo`
as the general formulation (`position_general`: `qdbl = q * N / 100`,
`rfoo = (qfoo * 100 / N == q)`), the function returns what the resolution of
either position returns, and in both `rfoo` holds exactly when `q * N / 100` is
an integer. -/
theorem position_formulations_agree (v : List ℚ) (start end_ : ℕ) (q : ℚ)
    (hN : 3 ≤ end_ - start) (hm : (end_ - start) % 100 = 0) :
    position_round (end_ - start) q = position_general (end_ - start) q ∧
      quantile_position (end_ - start) q = position_round (end_ - start) q ∧
      gf_array_dquantile_range v start end_ q =
        quantile_resolve v start end_ (position_round (end_ - start) q) ∧
      gf_array_dquantile_range v start end_ q =
        quantile_resolve v start end_ (position_general (end_ - start) q) ∧
      ((position_round (end_ - start) q).2.2 = true ↔
        ∃ z : ℤ, (z : ℚ) = q * ((end_ - start : ℕ) : ℚ) / 100) ∧
      ((position_general (end_ - start) q).2.2 = true ↔
        ∃ z : ℤ, (z : ℚ) = q * ((end_ - start : ℕ) : ℚ) / 100) := by
  have hagree := position_round_eq_general (end_ - start) q hm (by omega)
  have hpos : quantile_position (end_ - start) q = position_round (end_ - start) q := by
    simp only [quantile_position, hm, ne_eq, not_true_eq_false, if_false]
  have hres := quantile_eq_resolve v start end_ q (by omega) (by omega)
  have hrf := position_general_rfoo (end_ - start) q (by omega)
  refine ⟨hagree, hpos, ?_, ?_, ?_, hrf⟩
  · rw [hres, hpos]
  · rw [hres, hpos, hagree]
  · rw [hagree]
    exact hrf

/-- C17, at a range of 200 entries, all 0, and the percentile 25. -/
theorem position_formulations_agree_witness :
    (3 ≤ 200 - 0 ∧ (200 - 0) % 100 = 0) ∧
      position_round (200 - 0) 25 = position_general (200 - 0) 25 ∧
      quantile_position (200 - 0) 25 = position_round (200 - 0) 25 ∧
      gf_array_dquantile_range (List.replicate 200 0) 0 200 25 =
        quantile_resolve (List.replicate 200 0) 0 200 (position_round (200 - 0) 25) ∧
      gf_array_dquantile_range (List.replicate 200 0) 0 200 25 =
        quantile_resolve (List.replicate 200 0) 0 200 (position_general (200 - 0) 25) ∧
      ((position_round (200 - 0) 25).2.2 = true ↔
        ∃ z : ℤ, (z : ℚ) = 25 * ((200 - 0 : ℕ) : ℚ) / 100) ∧
      ((position_general (200 - 0) 25).2.2 = true ↔
        ∃ z : ℤ, (z : ℚ) = 25 * ((200 - 0 : ℕ) : ℚ) / 100) :=
  ⟨by decide, position_formulations_agree (List.replicate 200 0) 0 200 25 (by decide)
    (by decide)⟩

/-- C18: on a range of size `N ≥ 3` inside the array and for `0 < q < 100`,
every rank `gf_array_dquantile_range` hands to `gf_qselect_range` (`qfoo`,
`qfoo - 1` or `qth`) satisfies `0 ≤ k < N`, and the function has a defined
result; so a rank outside `0 ≤ k < N` is handed over only for `q' ≤ 0` or
`q' ≥ 100`. -/
theorem selection_ranks_within_contract (v : List ℚ) (start end_ : ℕ) (q : ℚ)
    (hN : 3 ≤ end_ - start) (h2 : end_ ≤ v.length) (hq0 : 0 < q) (hq1 : q < 100) :
    (∀ k ∈ selection_ranks (end_ - start) q, 0 ≤ k ∧ k < ((end_ - start : ℕ) : ℤ)) ∧
      (gf_array_dquantile_range v start end_ q).isSome = true ∧
      (∀ q' : ℚ, (∃ k ∈ selection_ranks (end_ - start) q',
          ¬ (0 ≤ k ∧ k < ((end_ - start : ℕ) : ℤ))) → q' ≤ 0 ∨ 100 ≤ q') := by
  have hr := selection_ranks_in_range (end_ - start) q hN hq0 hq1
  refine ⟨hr, ?_, ?_⟩
  · obtain ⟨w, hw, -⟩ := quantile_eval v start end_ q hN h2 hq0 hq1
    rw [hw]
    rfl
  · rintro q' ⟨k, hk, hbad⟩
    by_contra hcon
    push_neg at hcon
    exact hbad (selection_ranks_in_range (end_ - start) q' hN hcon.1 hcon.2 k hk)

/-- C18, at the full range of `[3, 7, 1, 9, 2]` and the percentile 40, where
the ranks 2 and 1 are handed over. -/
theorem selection_ranks_within_contract_witness :
    (3 ≤ 5 - 0 ∧ 5 ≤ ([3, 7, 1, 9, 2] : List ℚ).length ∧ (0 : ℚ) < 40 ∧ (40 : ℚ) < 100) ∧
      selection_ranks (5 - 0) 40 = [2, 1] ∧
      (∀ k ∈ selection_ranks (5 - 0) 40, 0 ≤ k ∧ k < ((5 - 0 : ℕ) : ℤ)) ∧
      (gf_array_dquantile_range [3, 7, 1, 9, 2] 0 5 40).isSome = true ∧
      (∀ q' : ℚ, (∃ k ∈ selection_ranks (5 - 0) q',
          ¬ (0 ≤ k ∧ k < ((5 - 0 : ℕ) : ℤ))) → q' ≤ 0 ∨ 100 ≤ q') :=
  ⟨⟨by decide, by decide, by norm_num, by norm_num⟩, by decide!,
    selection_ranks_within_contract [3, 7, 1, 9, 2] 0 5 40 (by decide) (by decide)
      (by norm_num) (by norm_num)⟩

/-- C19: when the sameness test of `gf_array_dsd_range` fails on a range with
`start ≤ end`, the size `end - start` is at least 2, the divisor
`end - start - 1` is at least 1 and is what the unsigned subtractions of
`GT_size` (modulo any `M > end`) give, without wrapping; the function then
returns the square root of the sum of squared deviations over that divisor,
which is not 0. -/
theorem gf_array_dsd_range_divisor (H : Host) (v : List ℚ) (start end_ M : ℕ)
    (hle : start ≤ end_) (hM : end_ < M)
    (hd : gf_array_dsame (v.drop start) (end_ - start) = false) :
    2 ≤ end_ - start ∧ 1 ≤ end_ - start - 1 ∧
      GT_size_sub M end_ start = end_ - start ∧
      GT_size_sub M (GT_size_sub M end_ start) 1 = end_ - start - 1 ∧
      ((end_ - start - 1 : ℕ) : ℚ) ≠ 0 ∧
      gf_array_dsd_range H v start end_ =
        H.sqrt ((slice v start end_).foldl
            (fun vvar x => vvar + SQUARE (x - gf_array_dmean_range v start end_)) 0 /
          ((end_ - start - 1 : ℕ) : ℚ)) := by
  have hN : 2 ≤ end_ - start := by
    by_contra hcon
    have h0 : end_ - start - 1 = 0 := by omega
    have hs : slice (v.drop start) 1 (end_ - start) = [] := by
      simp only [slice, h0, List.take_zero]
    simp only [gf_array_dsame, hs, List.any_nil, Bool.not_false] at hd
    exact absurd hd (by decide)
  have hs1 : GT_size_sub M end_ start = end_ - start := by
    unfold GT_size_sub
    have h3 : end_ + M - start = (end_ - start) + M := by omega
    rw [h3, Nat.add_mod_right, Nat.mod_eq_of_lt (by omega)]
  have hs2 : GT_size_sub M (end_ - start) 1 = end_ - start - 1 := by
    unfold GT_size_sub
    have h3 : end_ - start + M - 1 = (end_ - start - 1) + M := by omega
    rw [h3, Nat.add_mod_right, Nat.mod_eq_of_lt (by omega)]
  refine ⟨hN, by omega, hs1, by rw [hs1, hs2], ?_, ?_⟩
  · have h4 : 0 < end_ - start - 1 := by omega
    exact_mod_cast h4.ne'
  · simp only [gf_array_dsd_range, hd, if_false, Bool.false_eq_true]

/-- C19, at the full range of `[1, 2]` with the host of the examples and
64-bit sizes. -/
theorem gf_array_dsd_range_divisor_witness :
    (0 ≤ 2 ∧ 2 < 2 ^ 64 ∧ gf_array_dsame (([1, 2] : List ℚ).drop 0) (2 - 0) = false) ∧
      2 ≤ 2 - 0 ∧ 1 ≤ 2 - 0 - 1 ∧
      GT_size_sub (2 ^ 64) 2 0 = 2 - 0 ∧
      GT_size_sub (2 ^ 64) (GT_size_sub (2 ^ 64) 2 0) 1 = 2 - 0 - 1 ∧
      ((2 - 0 - 1 : ℕ) : ℚ) ≠ 0 ∧
      gf_array_dsd_range exampleHost [1, 2] 0 2 =
        exampleHost.sqrt ((slice [1, 2] 0 2).foldl
            (fun vvar x => vvar + SQUARE (x - gf_array_dmean_range [1, 2] 0 2)) 0 /
          ((2 - 0 - 1 : ℕ) : ℚ)) :=
  ⟨⟨by decide, by decide, by decide!⟩,
    gf_array_dsd_range_divisor exampleHost [1, 2] 0 2 (2 ^ 64) (by decide) (by decide)
      (by decide!)⟩

/-- C20: on a non-empty range of the array and for a host whose square root is
positive on positive numbers (as the exact one is), when the entries of the
range are not all equal the second central moment `m2` that
`gf_array_dskew_range` and `gf_array_dkurt_range` compute is positive; each of
the two functions returns through a `return (SV_missval)` (the sameness test
succeeds, or `aux2 > 0`, respectively `m2 > 0`, fails) exactly when the range
is constant, and returns `m3 / aux2`, respectively `m4 / (m2 * m2)`,
otherwise; and the value returned is the missing value exactly when the range
is constant, for the kurtosis when the missing value exceeds the size `N`, for
the skewness when the square of the square root is at least half its argument
and the square of the missing value exceeds `8 * N * N`. -/
theorem skew_kurt_missing_iff_constant (H : Host) (v : List ℚ) (start end_ : ℕ)
    (h1 : start < end_) (h2 : end_ ≤ v.length) (hsqrt : ∀ x : ℚ, 0 < x → 0 < H.sqrt x) :
    ((¬ ∀ i, start ≤ i → i < end_ → rd v i = rd v start) →
        0 < (skew_sums (slice v start end_) (gf_array_dmean_range v start end_)).1 /
          ((end_ - start : ℕ) : ℚ) ∧
        0 < (kurt_sums (slice v start end_) (gf_array_dmean_range v start end_)).1 /
          ((end_ - start : ℕ) : ℚ)) ∧
      (skew_returns_missing H v start end_ = true ↔
        ∀ i, start ≤ i → i < end_ → rd v i = rd v start) ∧
      (kurt_returns_missing v start end_ = true ↔
        ∀ i, start ≤ i → i < end_ → rd v i = rd v start) ∧
      gf_array_dskew_range H v start end_ =
        (if skew_returns_missing H v start end_ = true then H.SV_missval
          else (skew_sums (slice v start end_) (gf_array_dmean_range v start end_)).2 /
              ((end_ - start : ℕ) : ℚ) /
            (H.sqrt ((skew_sums (slice v start end_) (gf_array_dmean_range v start end_)).1 /
                ((end_ - start : ℕ) : ℚ)) *
              H.sqrt ((skew_sums (slice v start end_) (gf_array_dmean_range v start end_)).1 /
                ((end_ - start : ℕ) : ℚ)) *
              H.sqrt ((skew_sums (slice v start end_) (gf_array_dmean_range v start end_)).1 /
                ((end_ - start : ℕ) : ℚ)))) ∧
      gf_array_dkurt_range H v start end_ =
        (if kurt_returns_missing v start end_ = true then H.SV_missval
          else (kurt_sums (slice v start end_) (gf_array_dmean_range v start end_)).2 /
              ((end_ - start : ℕ) : ℚ) /
            ((kurt_sums (slice v start end_) (gf_array_dmean_range v start end_)).1 /
                ((end_ - start : ℕ) : ℚ) *
              ((kurt_sums (slice v start end_) (gf_array_dmean_range v start end_)).1 /
                ((end_ - start : ℕ) : ℚ)))) ∧
      (((end_ - start : ℕ) : ℚ) < H.SV_missval →
        (gf_array_dkurt_range H v start end_ = H.SV_missval ↔
          ∀ i, start ≤ i → i < end_ → rd v i = rd v start)) ∧
      ((∀ x : ℚ, 0 < x → x ≤ 2 * (H.sqrt x * H.sqrt x)) →
        8 * (((end_ - start : ℕ) : ℚ) * ((end_ - start : ℕ) : ℚ)) <
          H.SV_missval * H.SV_missval →
        (gf_array_dskew_range H v start end_ = H.SV_missval ↔
          ∀ i, start ≤ i → i < end_ → rd v i = rd v start)) := by
  refine ⟨?_, skew_returns_missing_iff H v start end_ h1 h2 hsqrt,
    kurt_returns_missing_iff v start end_ h1 h2, skew_range_by_cases H v start end_,
    kurt_range_by_cases H v start end_,
    fun hbig => kurt_value_missing_iff H v start end_ h1 h2 hbig,
    fun hacc hbig => skew_value_missing_iff H v start end_ h1 h2 hsqrt hacc hbig⟩
  intro hnc
  constructor
  · rw [skew_sums_eq]
    exact second_moment_pos v start end_ h1 h2 hnc
  · rw [kurt_sums_eq]
    exact second_moment_pos v start end_ h1 h2 hnc

/-- C20, at the full range of `[1, 2, 4]`, which is not constant, with a host
whose square root is Heron's iteration. -/
theorem skew_kurt_missing_iff_constant_witness :
    (0 < 3 ∧ 3 ≤ ([1, 2, 4] : List ℚ).length ∧ ∀ x : ℚ, 0 < x → 0 < heronHost.sqrt x) ∧
      (¬ ∀ i, 0 ≤ i → i < 3 → rd [1, 2, 4] i = rd [1, 2, 4] 0) ∧
      0 < (skew_sums (slice [1, 2, 4] 0 3) (gf_array_dmean_range [1, 2, 4] 0 3)).1 /
        ((3 - 0 : ℕ) : ℚ) ∧
      (skew_returns_missing heronHost [1, 2, 4] 0 3 = true ↔
        ∀ i, 0 ≤ i → i < 3 → rd [1, 2, 4] i = rd [1, 2, 4] 0) ∧
      (kurt_returns_missing [1, 2, 4] 0 3 = true ↔
        ∀ i, 0 ≤ i → i < 3 → rd [1, 2, 4] i = rd [1, 2, 4] 0) :=
  have hnc : ¬ ∀ i, 0 ≤ i → i < 3 → rd [1, 2, 4] i = rd [1, 2, 4] 0 := by
    intro h
    have h1 := h 1 (by decide) (by decide)
    exact absurd h1 (by decide!)
  have h := skew_kurt_missing_iff_constant heronHost [1, 2, 4] 0 3 (by decide) (by decide)
    heronHost_sqrt_pos
  ⟨⟨by decide, by decide, heronHost_sqrt_pos⟩, hnc, (h.1 hnc).1, h.2.1, h.2.2.1⟩

end Gtools
